import Mathlib

/-!
Verification development for the jira-reporting batch ETL code base.

The Python sources (core.py, jira_data.py, jira_sprints.py, db.py, util.py)
are shallowly embedded below: pure transformation functions become Lean
functions, Python exceptions become an explicit `Except PyErr` result, and
Python dicts become insertion-ordered association lists.  External
collaborators (the issue tracker client and the relational sink) are out of
the code base and are taken as inputs, following the interface description
of the specification.
-/

/-- Kinds of Python exception that the embedded code can raise.
`noData` stands for the `Exception("No data found for this query")`
raised by `list_to_df` after logging a warning; the other constructors
are the built-in Python exception classes of the same name. -/
inductive PyErr where
  | typeError
  | keyError
  | indexError
  | valueError
  | assertionError
  | noData
deriving Repr, DecidableEq

/-- Python values as they appear in the issue payloads handled by
`core.Report`: `none` is Python `None`, `dict` is an insertion-ordered
mapping with string keys (the only keys the code ever uses). -/
inductive PyVal where
  | none : PyVal
  | bool (b : Bool) : PyVal
  | int (n : Int) : PyVal
  | str (s : String) : PyVal
  | list (xs : List PyVal) : PyVal
  | dict (kvs : List (String × PyVal)) : PyVal
deriving Repr, Inhabited

mutual

/-- Structural equality test for `PyVal` (Python `==` restricted to the
value shapes above). -/
def PyVal.beq : PyVal → PyVal → Bool
  | .none, .none => true
  | .bool a, .bool b => a == b
  | .int a, .int b => a == b
  | .str a, .str b => a == b
  | .list xs, .list ys => PyVal.beqList xs ys
  | .dict xs, .dict ys => PyVal.beqPairs xs ys
  | _, _ => false

/-- Elementwise equality of lists of `PyVal`. -/
def PyVal.beqList : List PyVal → List PyVal → Bool
  | [], [] => true
  | x :: xs, y :: ys => PyVal.beq x y && PyVal.beqList xs ys
  | _, _ => false

/-- Elementwise equality of association lists of `PyVal`. -/
def PyVal.beqPairs : List (String × PyVal) → List (String × PyVal) → Bool
  | [], [] => true
  | (k, v) :: xs, (k2, v2) :: ys => k == k2 && PyVal.beq v v2 && PyVal.beqPairs xs ys
  | _, _ => false

end

instance : BEq PyVal := ⟨PyVal.beq⟩

mutual

theorem PyVal.beq_iff_eq : ∀ a b : PyVal, PyVal.beq a b = true ↔ a = b
  | .none, b => by cases b <;> simp [PyVal.beq]
  | .bool a, b => by cases b <;> simp [PyVal.beq]
  | .int a, b => by cases b <;> simp [PyVal.beq]
  | .str a, b => by cases b <;> simp [PyVal.beq]
  | .list xs, b => by
      cases b <;> simp [PyVal.beq]
      exact PyVal.beqList_iff_eq xs _
  | .dict xs, b => by
      cases b <;> simp [PyVal.beq]
      exact PyVal.beqPairs_iff_eq xs _

theorem PyVal.beqList_iff_eq : ∀ xs ys : List PyVal, PyVal.beqList xs ys = true ↔ xs = ys
  | [], ys => by cases ys <;> simp [PyVal.beqList]
  | x :: xs, ys => by
      cases ys with
      | nil => simp [PyVal.beqList]
      | cons y ys =>
        simp [PyVal.beqList, PyVal.beq_iff_eq x y, PyVal.beqList_iff_eq xs ys]

theorem PyVal.beqPairs_iff_eq : ∀ xs ys : List (String × PyVal),
    PyVal.beqPairs xs ys = true ↔ xs = ys
  | [], ys => by cases ys <;> simp [PyVal.beqPairs]
  | (k, v) :: xs, ys => by
      cases ys with
      | nil => simp [PyVal.beqPairs]
      | cons y ys =>
        obtain ⟨k2, v2⟩ := y
        simp [PyVal.beqPairs, PyVal.beq_iff_eq v v2, PyVal.beqPairs_iff_eq xs ys,
          and_assoc]

end

instance : DecidableEq PyVal := fun a b =>
  decidable_of_iff (PyVal.beq a b = true) (PyVal.beq_iff_eq a b)

/-- Python `str.lower()` restricted to the character-wise case mapping
the code relies on (ASCII status and field values). -/
def pyToLower (s : String) : String :=
  String.mk (s.data.map Char.toLower)

/-- Python `str()` of a value, to the extent the embedded code observes it:
`get_issue_data` only compares `str(val).lower()` against `"nan"`, so the
container cases render with brackets (never equal to `"nan"`) without
reproducing the exact `repr` of each element. -/
def pyStr : PyVal → String
  | .none => "None"
  | .bool true => "True"
  | .bool false => "False"
  | .int n => toString n
  | .str s => s
  | .list _ => "[...]"
  | .dict _ => "[...]"

/-- Keys of an association list (a Python dict in insertion order). -/
def dictKeys (d : List (String × α)) : List String :=
  d.map Prod.fst

/-- Python dict assignment `d[k] = v`: overwrite the first binding of `k`
when present, otherwise append the new binding at the end (insertion
order). -/
def dictSet (d : List (String × α)) (k : String) (v : α) : List (String × α) :=
  if (d.lookup k).isSome then
    d.map (fun kv => if kv.1 = k then (k, v) else kv)
  else
    d ++ [(k, v)]

/-- Python subscript `container[key]` with a string key, as used by
`Report.get_issue_field_val`: a dict yields the bound value or raises
`KeyError`; `None` and every non-dict container raise `TypeError`
(string-keyed subscripts are invalid on them). -/
def pySubscript (v : PyVal) (key : String) : Except PyErr PyVal :=
  match v with
  | .dict kvs =>
    match kvs.lookup key with
    | some w => .ok w
    | Option.none => .error .keyError
  | .none => .error .typeError
  | .bool _ => .error .typeError
  | .int _ => .error .typeError
  | .str _ => .error .typeError
  | .list _ => .error .typeError

/-- Embedding of `Report.get_issue_field_val(issue, field_name, field_data_key)`
(core.py lines 34-41).  An issue is represented by its `raw["fields"]`
dict.  The `assert field_name in issue_fields` of the source raises
`AssertionError` when the field is absent; with a sub-key the source then
evaluates `issue.raw["fields"][field_name][field_data_key]`. -/
def get_issue_field_val (issue_fields : List (String × PyVal)) (field_name : String)
    (field_data_key : Option String) : Except PyErr PyVal :=
  if h : (issue_fields.lookup field_name).isSome then
    let v := (issue_fields.lookup field_name).get h
    match field_data_key with
    | some k => pySubscript v k
    | Option.none => .ok v
  else .error .assertionError

/-- Embedding of `Report.get_issue_data(issue, fields)` (core.py lines 43-59):
fold over the requested field mapping, storing `1` for a successfully
resolved `"resolution"` field, the nan-coerced value for every other
successful field, and the TypeError fallbacks `0` / `None`; every other
exception (KeyError, AssertionError) propagates. -/
def get_issue_data (issue_fields : List (String × PyVal))
    (fields : List (String × Option String)) : Except PyErr (List (String × PyVal)) :=
  go [] fields
where
  /-- Loop of `get_issue_data` over the remaining field entries, carrying
  the dict built so far. -/
  go (acc : List (String × PyVal)) :
      List (String × Option String) → Except PyErr (List (String × PyVal))
  | [] => .ok acc
  | (field_name, field_key) :: rest =>
    match get_issue_field_val issue_fields field_name field_key with
    | .ok val =>
      if field_name = "resolution" then
        go (dictSet acc field_name (.int 1)) rest
      else
        go (dictSet acc field_name
          (if pyToLower (pyStr val) = "nan" then .none else val)) rest
    | .error .typeError =>
      if field_name = "resolution" then
        go (dictSet acc field_name (.int 0)) rest
      else
        go (dictSet acc field_name .none) rest
    | .error e => .error e

/-- One sprint-membership record of an issue, as consumed by
`Report.get_last_sprint`: the source reads `sprint_val.get("id")` and
`sprint_val.get("name", None)` from each record, which the data model
guarantees to be a numeric id and a name string. -/
structure SprintRec where
  id : Int
  name : String
deriving Repr, DecidableEq

/-- Python `max(xs)` on a list of integers: `ValueError` on an empty
sequence, otherwise the left fold of binary `max` over the list. -/
def pyMax : List Int → Except PyErr Int
  | [] => .error .valueError
  | x :: xs => .ok (xs.foldl max x)

/-- Embedding of `Report.get_last_sprint(sprint_data)` (core.py lines 61-66):
collect the ids and the names, take `max(ids)` (Python raises `ValueError`
for an empty list), and return the name at the first index of the maximum
(`list.index` returns the first occurrence). -/
def get_last_sprint (sprint_data : List SprintRec) : Except PyErr String :=
  let sequences := sprint_data.map SprintRec.id
  let sprint_names := sprint_data.map SprintRec.name
  match pyMax sequences with
  | .error e => .error e
  | .ok m =>
    match sprint_names.get? (sequences.indexOf m) with
    | some n => .ok n
    | Option.none => .error .indexError

/-- Embedding of `Report.get_all_sprint_data(sprint_data)` (core.py lines
68-71): the comma-space join of the sprint names in input order. -/
def get_all_sprint_data (sprint_data : List SprintRec) : String :=
  String.intercalate ", " (sprint_data.map SprintRec.name)

/-- Sequential `Except`-aware map: a Python list comprehension whose body
may raise — the first exception aborts the whole comprehension. -/
def exceptMap (f : α → Except PyErr β) : List α → Except PyErr (List β)
  | [] => .ok []
  | a :: l =>
    match f a with
    | .error e => .error e
    | .ok b =>
      match exceptMap f l with
      | .error e => .error e
      | .ok bs => .ok (b :: bs)

/-- First match of the regular expression `name=[^,]*` in a character list:
scan left to right for a position starting with `name=` and extend the
match greedily with non-comma characters. -/
def find_name_match : List Char → Option (List Char)
  | [] => Option.none
  | c :: rest =>
    if List.isPrefixOf "name=".data (c :: rest) then
      some ((c :: rest).takeWhile (fun ch => ch ≠ ','))
    else
      find_name_match rest

/-- Python `str.replace("name=", "")` at the character level: remove every
(non-overlapping, leftmost-first) occurrence of `name=`. -/
def stripNameTokens : List Char → List Char
  | 'n' :: 'a' :: 'm' :: 'e' :: '=' :: rest => stripNameTokens rest
  | c :: rest => c :: stripNameTokens rest
  | [] => []

/-- Embedding of `re.findall(r"name=[^,]*", str(sprint_val))[0].replace("name=", "")`
from `Report.get_sprint_counts` (core.py line 77): the leading `name=...`
token of the stringified sprint descriptor with every `name=` occurrence
removed; `[0]` raises `IndexError` when the descriptor has no match. -/
def extract_sprint_name (descriptor : String) : Except PyErr String :=
  match find_name_match descriptor.data with
  | some cs => .ok (String.mk (stripNameTokens cs))
  | Option.none => .error .indexError

/-- Embedding of `Report.get_sprint_counts(issues, sprint_col)` (core.py
lines 73-80).  Each issue contributes the list of its stringified sprint
descriptors (the value of `get_issue_field_val(issue, sprint_col)` after
`str` is applied to each element); the lists are concatenated
(`sum(sprint_data, [])`), the `name=` token is extracted from each
descriptor, and the result maps each distinct name to its occurrence
count.  Python iterates `set(sprint_names)` in an unspecified order; the
embedding uses `dedup`, which is immaterial to the sorted summary built
from the counts. -/
def get_sprint_counts (sprint_data : List (List String)) :
    Except PyErr (List (String × Nat)) :=
  match exceptMap extract_sprint_name sprint_data.flatten with
  | .error e => .error e
  | .ok sprint_names =>
    .ok (sprint_names.dedup.map (fun k => (k, sprint_names.count k)))

/-- Embedding of `Report.get_issues_completed(jira_data)` (core.py lines
82-88) on the row view of the dataframe: each row carries its `sprint`
label and its `status`; the rows whose lowercased status is `"done"`
contribute their sprint label, and the result counts each label. -/
def get_issues_completed (jira_rows : List (String × String)) : List (String × Nat) :=
  let completed_cards := (jira_rows.filter (fun r => pyToLower r.2 = "done")).map Prod.fst
  completed_cards.dedup.map (fun k => (k, completed_cards.count k))

/-- Lexicographic (code-point) comparison of character lists:
`charListLe as bs` is true iff `as` is not strictly greater than `bs` in
the standard list order. -/
def charListLe : List Char → List Char → Bool
  | [], _ => true
  | _ :: _, [] => false
  | a :: as, b :: bs => if a = b then charListLe as bs else decide (a < b)

/-- String comparison used by `sort_values` on a string column: Python
compares strings lexicographically by code point, which is the standard
string order. -/
def pyStrLe (a b : String) : Bool :=
  charListLe a.data b.data

/-- Row of the sprint summary dataframe: `(sprint, completed, total)` in
the column order of `Report.sprint_summary`. -/
def SummaryRow : Type := String × Nat × Nat
deriving instance Repr, DecidableEq for SummaryRow

/-- Embedding of `Report.sprint_summary(sprint_counts, completed_issues)`
(core.py lines 90-100): one row per entry of `sprint_counts` with the
completed count looked up in `completed_issues` (`except KeyError`
substitutes 0), and the dataframe sorted ascending by the `sprint`
column; `sort_values` is a stable sort on the label strings, and a
stable sort is unique, here given by insertion sort. -/
def sprint_summary (sprint_counts : List (String × Nat))
    (completed_issues : List (String × Nat)) : List SummaryRow :=
  let rows : List SummaryRow := sprint_counts.map
    (fun kv => (kv.1, ((completed_issues.lookup kv.1).getD 0, kv.2)))
  List.insertionSort (fun a b => pyStrLe a.1 b.1 = true) rows

/-- One flat row (a Python dict of column name to value) as produced by
`jira_data.get_relevant_issue_data` and consumed by `core.list_to_df`. -/
def Row : Type := List (String × PyVal)
deriving instance Repr, DecidableEq, Inhabited for Row

/-- Columnar dataframe built by `core.list_to_df`: column name to the
ordered list of that column values, columns in first-row key order. -/
def Df : Type := List (String × List PyVal)
deriving instance Repr, DecidableEq, Inhabited for Df

/-- Statement `d[k].append(v)` from the loop of `core.list_to_df`: append
`v` to the column bound to `k`, raising `KeyError` when `k` is not a
column (a later row with a key absent from the first row). -/
def df_append (d : Df) (k : String) (v : PyVal) : Except PyErr Df :=
  match d with
  | [] => .error .keyError
  | (k2, col) :: rest =>
    if k2 = k then .ok ((k2, col ++ [v]) :: rest)
    else
      match df_append rest k v with
      | .error e => .error e
      | .ok rest2 => .ok ((k2, col) :: rest2)

/-- Inner loop of `core.list_to_df`: append every value of one row to its
column. -/
def df_add_row (d : Df) (row : Row) : Except PyErr Df :=
  match row with
  | [] => .ok d
  | (k, v) :: rest =>
    match df_append d k v with
    | .error e => .error e
    | .ok d2 => df_add_row d2 rest

/-- Outer loop of `core.list_to_df` over all rows. -/
def df_add_rows (d : Df) : List Row → Except PyErr Df
  | [] => .ok d
  | row :: rows =>
    match df_add_row d row with
    | .error e => .error e
    | .ok d2 => df_add_rows d2 rows

/-- Embedding of `core.list_to_df(dict_list)` (core.py lines 293-302):
initialise one empty column per key of the first row, run the
append loops over every row, and wrap the result as a dataframe; an
empty input logs the warning `No data found for this query` and raises
the exception of the same message (`PyErr.noData`). -/
def list_to_df (dict_list : List Row) : Except PyErr Df :=
  match dict_list with
  | [] => .error .noData
  | first :: _ =>
    df_add_rows (first.map (fun kv => (kv.1, ([] : List PyVal)))) dict_list

/-- Number of rows of the dataframe (`len(df)`): the length of any column,
taken from the first one, `0` for a dataframe with no columns. -/
def df_nrows (d : Df) : Nat :=
  match d with
  | [] => 0
  | (_, col) :: _ => col.length

/-- Embedding of `db.df_to_rows(data)` (db.py lines 49-50): regroup the
dataframe row-wise, each row being the dict of column name to the value
of that column at the row index, columns in column order. -/
def df_to_rows (d : Df) : List Row :=
  (List.range (df_nrows d)).map
    (fun i => d.map (fun kc => (kc.1, kc.2.getD i PyVal.none)))

/-- Embedding of `DataFrame.rename(columns={old: new})` as used by
`jira_data.pull_data` on the `last_sprint` column. -/
def df_rename (d : Df) (old new : String) : Df :=
  d.map (fun kc => if kc.1 = old then (new, kc.2) else kc)

/-- Outcome of one query of Pipeline 1 when its pipeline does not raise:
either the rows were uploaded, or the upload failed and was caught and
logged by the `except` block of `jira_data.pull_data`. -/
inductive UploadOutcome where
  | uploaded
  | uploadFailedLogged
deriving Repr, DecidableEq

/-- One configured query of Pipeline 1 with its environment: the rows its
extraction yields (the value of `get_relevant_issue_data` for the issues
the tracker returns) and whether the database upload would succeed. -/
structure QueryRun where
  rows : List Row
  dbOk : Bool

/-- Embedding of `jira_data.pull_data(query)` (jira_data.py lines 24-43)
from the point the extraction rows are in hand: flatten the rows with
`list_to_df` (which raises on an empty extraction, before any upload is
attempted), rename the `last_sprint` column to `sprint`, then attempt the
upload inside `try/except` — an upload failure is logged and swallowed,
so a query whose extraction is non-empty never raises. -/
def pull_data (q : QueryRun) : Except PyErr UploadOutcome :=
  match list_to_df q.rows with
  | .error e => .error e
  | .ok df =>
    let _ := df_rename df "last_sprint" "sprint"
    if q.dbOk then .ok .uploaded else .ok .uploadFailedLogged

/-- Embedding of `jira_data.refresh_jira_data()` (jira_data.py lines 52-60):
run `pull_data` for every configured query in order.  The loop body has
no exception handler, so the first query whose pipeline raises aborts
the whole run. -/
def refresh_jira_data : List QueryRun → Except PyErr (List UploadOutcome)
  | [] => .ok []
  | q :: rest =>
    match pull_data q with
    | .error e => .error e
    | .ok r =>
      match refresh_jira_data rest with
      | .error e => .error e
      | .ok rs => .ok (r :: rs)

/-- Calendar fields of a parsed timestamp, the output of
`datetime.strptime` for the two fixed formats the code uses (year, month,
day, hour, minute, second, microsecond).  The four-digit `%Y` keeps the
year a natural number. -/
structure DTFields where
  year : Nat
  month : Nat
  day : Nat
  hour : Nat
  minute : Nat
  second : Nat
  micro : Nat
deriving Repr, DecidableEq

/-- Timezone-aware datetime: calendar fields plus the UTC offset in
minutes.  A worklog `started` parsed with `%z` carries its own offset; a
sprint boundary parsed naive and then given `tzinfo=pytz.utc` has offset
0. -/
structure AwareDT where
  fields : DTFields
  offsetMinutes : Int
deriving Repr, DecidableEq

/-- Day number of a Gregorian calendar date counted from 0000-03-01
(standard days-from-civil computation, valid for the four-digit years
`strptime` produces). -/
def daysFromCivil (y m d : Nat) : Nat :=
  let yAdj := if m ≤ 2 then y - 1 else y
  let era := yAdj / 400
  let yoe := yAdj % 400
  let mp := if 2 < m then m - 3 else m + 9
  let doy := (153 * mp + 2) / 5 + (d - 1)
  let doe := yoe * 365 + yoe / 4 - yoe / 100 + doy
  era * 146097 + doe

/-- Instant of a timezone-aware datetime in microseconds on a common UTC
axis; Python compares aware datetimes by exactly this quantity (local
fields minus the UTC offset). -/
def utcMicros (t : AwareDT) : Int :=
  (daysFromCivil t.fields.year t.fields.month t.fields.day : Int) * 86400000000
    + ((t.fields.hour * 3600 + t.fields.minute * 60 + t.fields.second : Nat) : Int) * 1000000
    + (t.fields.micro : Int)
    - t.offsetMinutes * 60000000

/-- Python `<=` on timezone-aware datetimes: comparison of UTC instants. -/
def awareLe (a b : AwareDT) : Bool :=
  utcMicros a ≤ utcMicros b

/-- One worklog entry dict built by `ProjectData.get_issue_worklogs`
(core.py lines 195-206): the spent seconds, the parsed `started`
timestamp (its string form `%Y-%m-%dT%H:%M:%S.%f%z` is timezone-aware),
the `updated` string and the author, the latter two unused downstream. -/
structure WorklogEntry where
  time_spent : Int
  started : AwareDT
deriving Repr, DecidableEq

/-- Result of a successful Python `float(s)` conversion: a finite value
kept as the exact signed decimal `(-1)^neg * mantissa * 10^exponent` read
off the literal (rounding to binary64 is abstracted away, no claim
depends on the rounded value), a signed infinity, or nan. -/
inductive PyFloat where
  | finite (neg : Bool) (mantissa : Nat) (exponent : Int)
  | inf (neg : Bool)
  | nan
deriving Repr, DecidableEq

/-- Whitespace characters stripped by Python `float()` (the ASCII ones;
the embedded strings are ASCII). -/
def isPyWhitespace (c : Char) : Bool :=
  c = ' ' || c = '\t' || c = '\n' || c = '\r' || c = '\x0b' || c = '\x0c'

/-- Greedy continuation of a digit group: further digits, with single
underscores allowed between digits (Python numeric literals). Returns the
digits collected (underscores removed) and the unconsumed remainder. -/
def digitPartAux (acc : List Char) : List Char → (List Char × List Char)
  | '_' :: c :: rest =>
    if c.isDigit then digitPartAux (acc ++ [c]) rest else (acc, '_' :: c :: rest)
  | c :: rest =>
    if c.isDigit then digitPartAux (acc ++ [c]) rest else (acc, c :: rest)
  | [] => (acc, [])

/-- Parse a digit group (at least one ASCII digit, single underscores
allowed between digits); `Option.none` when the input does not start with
a digit. -/
def digitPart : List Char → Option (List Char × List Char)
  | c :: rest => if c.isDigit then some (digitPartAux [c] rest) else Option.none
  | [] => Option.none

/-- Natural number denoted by a list of ASCII digits. -/
def natOfDigits (ds : List Char) : Nat :=
  ds.foldl (fun n c => n * 10 + (c.toNat - 48)) 0

/-- Finite float value from sign, integer digits, fraction digits and
decimal exponent: the digits form the mantissa and the fraction length
shifts the exponent. -/
def mkPyFloat (neg : Bool) (ip fp : List Char) (e : Int) : PyFloat :=
  .finite neg (natOfDigits (ip ++ fp)) (e - (fp.length : Int))

/-- Optional exponent part and end of input: accepts the empty remainder
or `e`/`E`, an optional sign and a digit group consuming the rest. -/
def parseExponentAndEnd (neg : Bool) (ip fp : List Char) : List Char → Option PyFloat
  | [] => if ip = [] && fp = [] then Option.none else some (mkPyFloat neg ip fp 0)
  | c :: rest =>
    if (c = 'e' || c = 'E') && !(ip = [] && fp = []) then
      let (esign, rest2) : Int × List Char :=
        match rest with
        | '+' :: r => (1, r)
        | '-' :: r => (-1, r)
        | r => (1, r)
      match digitPart rest2 with
      | some (ep, []) => some (mkPyFloat neg ip fp (esign * (natOfDigits ep : Int)))
      | _ => Option.none
    else Option.none

/-- Numeric (non inf/nan) body of a Python float literal: integer part,
optional fraction introduced by a dot, optional exponent; at least one
digit overall. -/
def parsePyFloatNumber (neg : Bool) (l : List Char) : Option PyFloat :=
  match digitPart l with
  | some (ip, rest) =>
    match rest with
    | '.' :: rest2 =>
      match digitPart rest2 with
      | some (fp, rest3) => parseExponentAndEnd neg ip fp rest3
      | Option.none => parseExponentAndEnd neg ip [] rest2
    | _ => parseExponentAndEnd neg ip [] rest
  | Option.none =>
    match l with
    | '.' :: rest2 =>
      match digitPart rest2 with
      | some (fp, rest3) => parseExponentAndEnd neg [] fp rest3
      | Option.none => Option.none
    | _ => Option.none

/-- Signed body of a Python float literal: the case-insensitive words
`inf`, `infinity` and `nan`, or a numeric literal. -/
def parsePyFloatBody (neg : Bool) (l : List Char) : Option PyFloat :=
  let lower := l.map Char.toLower
  if lower = "inf".data || lower = "infinity".data then some (.inf neg)
  else if lower = "nan".data then some .nan
  else parsePyFloatNumber neg l

/-- Embedding of Python `float(s)`: strip surrounding whitespace, read an
optional sign, then the body; `Option.none` is the `ValueError` case. -/
def pyFloat? (s : String) : Option PyFloat :=
  let l := ((s.data.dropWhile isPyWhitespace).reverse.dropWhile isPyWhitespace).reverse
  match l with
  | '+' :: rest => parsePyFloatBody false rest
  | '-' :: rest => parsePyFloatBody true rest
  | rest => parsePyFloatBody false rest

/-- Characters of the current split segment after scanning: splitting on
single spaces, `lastTokenAux cur l` is the last segment of `cur ++ l`. -/
def lastTokenAux (cur : List Char) : List Char → List Char
  | [] => cur
  | c :: rest => if c = ' ' then lastTokenAux [] rest else lastTokenAux (cur ++ [c]) rest

/-- Last element of `s.split(" ")` in Python: the substring after the
last space (the whole string when there is no space, possibly empty when
the string ends in a space; `split(" ")` never yields an empty list). -/
def pyLastToken (s : String) : String :=
  String.mk (lastTokenAux [] s.data)

/-- One sprint-row dict built by `ProjectData.get_issue_sprint_data`
(core.py lines 141-154).  `start_date` and `end_date` hold the parsed
fields of the `%Y-%m-%dT%H:%M:%S.%fZ` sprint boundary strings, which
`worklog_within_sprint` parses naive and stamps with `tzinfo=pytz.utc`.
`sprint_number` is the float of the last whitespace-delimited token of
the sprint name, kept as an exact rational (binary64 rounding is
abstracted away; no claim depends on the rounded value). -/
structure SprintDataRow where
  sprint_name : String
  start_date : DTFields
  end_date : DTFields
  board_id : Int
  sprint_state : String
  sprint_number : PyFloat
deriving Repr, DecidableEq

/-- Embedding of `ProjectData.worklog_within_sprint(worklog, sprint_data)`
(core.py lines 208-220): the sprint boundaries are given offset 0
(`.replace(tzinfo=utc)`) and the chained Python comparison
`sprint_start_date <= worklog_started <= sprint_end_date` is evaluated on
the UTC instants, inclusive at both ends. -/
def worklog_within_sprint (worklog : WorklogEntry) (sprint_data : SprintDataRow) : Bool :=
  let worklog_started := worklog.started
  let sprint_start_date : AwareDT := ⟨sprint_data.start_date, 0⟩
  let sprint_end_date : AwareDT := ⟨sprint_data.end_date, 0⟩
  awareLe sprint_start_date worklog_started && awareLe worklog_started sprint_end_date

/-- Row produced by `ProjectData.get_sprint_time_spent` for one
(issue, sprint) pair: the issue key, the sprint dict and the accumulated
`sprint_time_spent` seconds. -/
structure SprintTimeRow where
  issue_key : String
  sprint : SprintDataRow
  sprint_time_spent : Int
deriving Repr, DecidableEq

/-- One raw sprint object of the `customfield_10020` list of a fully
fetched issue (Pipeline 2): name, boundary timestamps (already grouped
into calendar fields; `worklog_within_sprint` parses the corresponding
strings with `%Y-%m-%dT%H:%M:%S.%fZ`), board id and state. -/
structure SprintObj where
  name : String
  startDate : DTFields
  endDate : DTFields
  boardId : Int
  state : String
deriving Repr, DecidableEq

/-- A fully fetched issue of Pipeline 2, with the parts of its field set
the sprint-time extraction reads: key, id, an `updated` ordering key, the
`customfield_10020` sprint list (`Option.none` when the tracker returns
null) and the worklog list. -/
structure JiraIssue where
  key : String
  id : String
  updated : Int
  sprints : Option (List SprintObj)
  worklogs : List WorklogEntry
deriving Repr, DecidableEq

/-- Embedding of `ProjectData.get_issue_sprint_data(iss)` (core.py lines
141-154): one dict per sprint of `iss.fields.customfield_10020`, with
`sprint_number = float(sprint.name.split(" ")[-1])` — `float` raises
`ValueError` when the last token is not numeric, aborting the whole list
comprehension; iterating a null sprint field raises `TypeError`. -/
def get_issue_sprint_data (iss : JiraIssue) : Except PyErr (List SprintDataRow) :=
  match iss.sprints with
  | Option.none => .error .typeError
  | some issue_sprints =>
    exceptMap
      (fun sprint =>
        match pyFloat? (pyLastToken sprint.name) with
        | some f =>
          .ok ⟨sprint.name, sprint.startDate, sprint.endDate, sprint.boardId,
            sprint.state, f⟩
        | Option.none => .error .valueError)
      issue_sprints

/-- Accumulating loop of `ProjectData.get_sprint_time_spent`: add the
`time_spent` of every worklog whose `started` passes
`worklog_within_sprint` for the given sprint. -/
def sprint_time_loop (sprint_data : SprintDataRow) :
    List WorklogEntry → Int → Int
  | [], acc => acc
  | worklog :: rest, acc =>
    sprint_time_loop sprint_data rest
      (if worklog_within_sprint worklog sprint_data then acc + worklog.time_spent else acc)

/-- Embedding of `ProjectData.get_sprint_time_spent(iss, sprint_data)`
(core.py lines 222-228): start from `sprint_time = 0`, accumulate the
matching worklog durations of the issue, and return the row carrying the
issue key, the sprint dict and the total. -/
def get_sprint_time_spent (iss : JiraIssue) (sprint_data : SprintDataRow) :
    SprintTimeRow :=
  { issue_key := iss.key
    sprint := sprint_data
    sprint_time_spent := sprint_time_loop sprint_data iss.worklogs 0 }

/-- Embedding of `ProjectData.get_issue_sprint_data_with_time_spent(iss)`
(core.py lines 230-232): the sprint rows of the issue, each enriched with
its in-window time total; an exception from `get_issue_sprint_data`
propagates, so no row of the issue is produced. -/
def get_issue_sprint_data_with_time_spent (iss : JiraIssue) :
    Except PyErr (List SprintTimeRow) :=
  match get_issue_sprint_data iss with
  | .error e => .error e
  | .ok sds => .ok (sds.map (get_sprint_time_spent iss))

/-- JQL query string built by `ProjectData.get_project_issues` (core.py
lines 119-123). -/
def project_issues_jql (project_key : String) : String :=
  "project=" ++ project_key ++ " and issuetype in (Task, Bug, Subtask, Sub-task) "
    ++ "ORDER BY updated DESC"

/-- Modelled from the spec: the issue-tracker client collaborator
(`JIRA.search_issues`, interface section 6 of the spec) is not part of
this code base; `search(query_expression, max_results)` is a bounded
search returning up to `max_results` of the matching issues, so it is
modelled as the prefix of the tracker-side result list `matching`, which
is ordered as the query's ORDER BY clause dictates. -/
def search_issues (matching : List JiraIssue) (maxResults : Nat) : List JiraIssue :=
  matching.take maxResults

/-- Embedding of `ProjectData.get_project_issues(self)` (core.py lines
113-124): issue the project/issuetype query and fetch with
`maxResults=20` — the docstring of the source function says
`Gets latest 100 (maximum)`, but the call passes 20. -/
def get_project_issues (matching : List JiraIssue) : List JiraIssue :=
  search_issues matching 20

/-- Truthiness of `issue_with_data.fields.customfield_10020`: a null or
empty sprint list is falsy, a non-empty list is truthy. -/
def sprints_truthy (iss : JiraIssue) : Bool :=
  match iss.sprints with
  | some (_ :: _) => true
  | _ => false

/-- Embedding of `ProjectData.get_issues_from_search_results` (core.py
lines 126-139): re-fetch every search result as a full issue
(`fetchFull` models `jira_connection.issue(iss.id)`) and keep the issues
whose sprint field is truthy. -/
def get_issues_from_search_results (fetchFull : JiraIssue → JiraIssue)
    (issues : List JiraIssue) : List JiraIssue :=
  (issues.map fetchFull).filter sprints_truthy

/-- Sprint-row half of `ProjectData.get_issue_and_sprint_data` (core.py
lines 234-241): the concatenation (`sum(..., [])`) of the per-issue
sprint-time rows of every populated issue; an exception in any issue
aborts the comprehension. -/
def all_sprint_rows (fetchFull : JiraIssue → JiraIssue)
    (issues : List JiraIssue) : Except PyErr (List SprintTimeRow) :=
  match exceptMap get_issue_sprint_data_with_time_spent
      (get_issues_from_search_results fetchFull issues) with
  | .error e => .error e
  | .ok ls => .ok ls.flatten

deriving instance DecidableEq for Except

/-- Modelled from the spec (for comparison in the sprint-summary claim):
the number of issues of a batch whose last-assigned sprint — the
`last_sprint` of section 4.2 — is the given label. -/
def spec_total_last_assigned (issue_sprints : List (List SprintRec)) (label : String) : Nat :=
  (issue_sprints.filter (fun l => decide (get_last_sprint l = .ok label))).length

/-!
Helper lemmas about folds, maxima, indices and association lists; the
claim theorems follow them.
-/

theorem foldl_max_init (xs : List Int) (x : Int) : x ≤ xs.foldl max x := by
  induction xs generalizing x with
  | nil => exact le_refl x
  | cons z zs ih =>
    simp only [List.foldl_cons]
    exact le_trans (le_max_left x z) (ih (max x z))

theorem foldl_max_le_of_mem (xs : List Int) (x y : Int) (hy : y ∈ xs) :
    y ≤ xs.foldl max x := by
  induction xs generalizing x with
  | nil => simp at hy
  | cons z zs ih =>
    simp only [List.foldl_cons]
    rcases List.mem_cons.mp hy with h | h
    · subst h
      exact le_trans (le_max_right x y) (foldl_max_init zs (max x y))
    · exact ih (max x z) h

theorem foldl_max_mem (xs : List Int) (x : Int) : xs.foldl max x ∈ x :: xs := by
  induction xs generalizing x with
  | nil => simp
  | cons y ys ih =>
    simp only [List.foldl_cons]
    rcases max_choice x y with h | h <;> rw [h]
    · rcases List.mem_cons.mp (ih x) with h2 | h2 <;> simp [h2]
    · rcases List.mem_cons.mp (ih y) with h2 | h2 <;> simp [h2]

theorem pyMax_ok (l : List Int) (h : l ≠ []) :
    ∃ m, pyMax l = .ok m ∧ m ∈ l ∧ ∀ x ∈ l, x ≤ m := by
  cases l with
  | nil => exact absurd rfl h
  | cons x xs =>
    refine ⟨xs.foldl max x, rfl, foldl_max_mem xs x, ?_⟩
    intro y hy
    rcases List.mem_cons.mp hy with h2 | h2
    · subst h2
      exact foldl_max_init xs y
    · exact foldl_max_le_of_mem xs x y h2

theorem get_ne_of_lt_indexOf {l : List Int} {m : Int} (hm : m ∈ l) :
    ∀ j (hj : j < l.length), j < l.indexOf m → l.get ⟨j, hj⟩ ≠ m := by
  induction l with
  | nil => simp at hm
  | cons x xs ih =>
    intro j hj hlt
    by_cases hx : x = m
    · subst hx
      simp [List.indexOf_cons] at hlt
    · rw [List.indexOf_cons] at hlt
      have hbeq : (x == m) = false := beq_false_of_ne hx
      rw [hbeq] at hlt
      simp only [cond_false] at hlt
      cases j with
      | zero => simpa using hx
      | succ j2 =>
        have hm2 : m ∈ xs := by
          rcases List.mem_cons.mp hm with h1 | h1
          · exact absurd h1.symm hx
          · exact h1
        exact ih hm2 j2 (by simpa using hj) (by omega)

/-- C4: for every issue with at least one sprint membership, the
`last_sprint` resolver returns the name of the membership whose id equals
the maximum of all membership ids, and when several memberships share
that maximum id it returns the name of the first such membership in list
order (the index `i` below).  The function is pure, so the same input
always gives the same output. -/
theorem get_last_sprint_first_max (sprint_data : List SprintRec)
    (h : sprint_data ≠ []) :
    ∃ i : Fin sprint_data.length,
      get_last_sprint sprint_data = .ok (sprint_data.get i).name ∧
      (∀ r ∈ sprint_data, r.id ≤ (sprint_data.get i).id) ∧
      ∀ j : Fin sprint_data.length, j.val < i.val →
        (sprint_data.get j).id < (sprint_data.get i).id := by
  obtain ⟨m, hpm, hmem, hle⟩ := pyMax_ok (sprint_data.map SprintRec.id)
    (by simpa using h)
  have hidx : (sprint_data.map SprintRec.id).indexOf m <
      (sprint_data.map SprintRec.id).length :=
    List.indexOf_lt_length.mpr hmem
  have hidx2 : (sprint_data.map SprintRec.id).indexOf m < sprint_data.length := by
    simpa using hidx
  have hgetm : (sprint_data.map SprintRec.id).get
      ⟨(sprint_data.map SprintRec.id).indexOf m, hidx⟩ = m :=
    List.indexOf_get hidx
  have hid_eq : (sprint_data.get ⟨(sprint_data.map SprintRec.id).indexOf m, hidx2⟩).id
      = m := by
    rw [List.get_eq_getElem] at hgetm ⊢
    rw [List.getElem_map] at hgetm
    exact hgetm
  refine ⟨⟨(sprint_data.map SprintRec.id).indexOf m, hidx2⟩, ?_, ?_, ?_⟩
  · have hnames : (sprint_data.map SprintRec.name).get?
        ((sprint_data.map SprintRec.id).indexOf m) =
        some ((sprint_data.get
          ⟨(sprint_data.map SprintRec.id).indexOf m, hidx2⟩).name) := by
      rw [List.get?_eq_getElem?, List.getElem?_map, List.getElem?_eq_getElem hidx2]
      simp [List.get_eq_getElem]
    simp only [get_last_sprint, hpm, hnames]
  · intro r hr
    rw [hid_eq]
    exact hle r.id (List.mem_map_of_mem SprintRec.id hr)
  · intro j hj
    rw [hid_eq]
    have hjlen : j.val < (sprint_data.map SprintRec.id).length := by simp
    have hne : (sprint_data.map SprintRec.id).get ⟨j.val, hjlen⟩ ≠ m :=
      get_ne_of_lt_indexOf hmem j.val hjlen hj
    have hje : (sprint_data.map SprintRec.id).get ⟨j.val, hjlen⟩ =
        (sprint_data.get j).id := by
      simp [List.get_eq_getElem]
    rw [hje] at hne
    have hjle : (sprint_data.get j).id ≤ m :=
      hle _ (List.mem_map_of_mem SprintRec.id (sprint_data.get_mem j.val j.isLt))
    exact lt_of_le_of_ne hjle hne

/-- Witness for the last-sprint resolver theorem at the scenario of the
spec: sprints 5 and 7 resolve to the name of sprint 7. -/
theorem get_last_sprint_first_max_witness :
    get_last_sprint [⟨5, "Sprint 5"⟩, ⟨7, "Sprint 7"⟩] = .ok "Sprint 7" := by
  obtain ⟨i, hres, hmax, _⟩ :=
    get_last_sprint_first_max [⟨5, "Sprint 5"⟩, ⟨7, "Sprint 7"⟩] (by decide)
  have h7 := hmax ⟨7, "Sprint 7"⟩ (by decide)
  fin_cases i
  · exact absurd h7 (by decide)
  · exact hres

/-- C5: for an issue with zero sprint memberships the `last_sprint`
resolver raises (the `max` of an empty sequence raises `ValueError`,
which the error taxonomy of the spec names `EmptyInputError`); it never
returns a value, hence never a silent null. -/
theorem get_last_sprint_empty_raises :
    get_last_sprint ([] : List SprintRec) = .error .valueError ∧
    ∀ s : String, get_last_sprint ([] : List SprintRec) ≠ .ok s := by
  refine ⟨rfl, ?_⟩
  intro s hs
  simp [get_last_sprint, pyMax] at hs

theorem sprint_time_loop_eq (sprint_data : SprintDataRow) :
    ∀ (wls : List WorklogEntry) (acc : Int),
      sprint_time_loop sprint_data wls acc =
        acc + ((wls.filter (fun wl => worklog_within_sprint wl sprint_data)).map
          WorklogEntry.time_spent).sum := by
  intro wls
  induction wls with
  | nil => intro acc; simp [sprint_time_loop]
  | cons wl rest ih =>
    intro acc
    by_cases hwl : worklog_within_sprint wl sprint_data
    · simp [sprint_time_loop, hwl, ih, List.filter_cons]
      ring
    · simp [sprint_time_loop, hwl, ih, List.filter_cons]

/-- C7: for every issue and sprint descriptor, the sprint time aggregator
returns a row whose `sprint_time_spent` is exactly the sum of
`time_spent` over the worklog entries of the issue whose `started`
passes the sprint-window filter for that sprint; when no worklog matches
the total is `0` — and the row always carries the field together with
the issue key and the sprint dict, never null or absent. -/
theorem get_sprint_time_spent_sums_matching (iss : JiraIssue)
    (sprint_data : SprintDataRow) :
    (get_sprint_time_spent iss sprint_data).sprint_time_spent =
      ((iss.worklogs.filter (fun wl => worklog_within_sprint wl sprint_data)).map
        WorklogEntry.time_spent).sum ∧
    (iss.worklogs.filter (fun wl => worklog_within_sprint wl sprint_data) = [] →
      (get_sprint_time_spent iss sprint_data).sprint_time_spent = 0) ∧
    (get_sprint_time_spent iss sprint_data).issue_key = iss.key ∧
    (get_sprint_time_spent iss sprint_data).sprint = sprint_data := by
  have hsum := sprint_time_loop_eq sprint_data iss.worklogs 0
  refine ⟨?_, ?_, rfl, rfl⟩
  · simpa [get_sprint_time_spent] using hsum
  · intro hempty
    simp [get_sprint_time_spent, hsum, hempty]

/-- Witness for the sprint time aggregator: an issue with two worklogs,
one inside and one outside a one-day sprint window, totals exactly the
inside one; with no matching worklog the total is `0`. -/
theorem get_sprint_time_spent_sums_matching_witness :
    (get_sprint_time_spent
        ⟨"AB-1", "1", 0, Option.none,
          [⟨3600, ⟨⟨2023, 1, 10, 12, 0, 0, 0⟩, 0⟩⟩, ⟨600, ⟨⟨2023, 2, 1, 0, 0, 0, 0⟩, 0⟩⟩]⟩
        ⟨"Sprint 1", ⟨2023, 1, 10, 0, 0, 0, 0⟩, ⟨2023, 1, 11, 0, 0, 0, 0⟩, 1, "closed",
          .finite false 1 0⟩).sprint_time_spent = 3600 ∧
    (get_sprint_time_spent ⟨"AB-1", "1", 0, Option.none, []⟩
        ⟨"Sprint 1", ⟨2023, 1, 10, 0, 0, 0, 0⟩, ⟨2023, 1, 11, 0, 0, 0, 0⟩, 1, "closed",
          .finite false 1 0⟩).sprint_time_spent = 0 := by
  constructor
  · rw [(get_sprint_time_spent_sums_matching _ _).1]
    decide
  · exact (get_sprint_time_spent_sums_matching _ _).2.1 (by decide)

/-- C1 counterexample: with two configured queries, the first yielding an
empty extraction and the second a well-formed row, the batch run aborts
with the `No data found for this query` exception — `refresh_jira_data`
has no exception handler around `pull_data`, so the second query (which
on its own would upload fine) never runs, contradicting the claim that a
failure inside one query never aborts the overall batch run. -/
theorem refresh_jira_data_abort_cex :
    list_to_df ([] : List Row) = .error .noData ∧
    pull_data ⟨[[("key", PyVal.str "AB-2")]], true⟩ = .ok .uploaded ∧
    refresh_jira_data [⟨[], true⟩, ⟨[[("key", PyVal.str "AB-2")]], true⟩] =
      .error .noData :=
  ⟨rfl, rfl, rfl⟩

/-- C1 (amended): when one configured query's extraction yields zero rows,
`list_to_df` raises `NoDataError` (after logging a warning) before the
upload step, so that query's upload is skipped — but the exception
propagates out of `pull_data` uncaught, so `refresh_jira_data` aborts and
the queries after the failing one do not run.  Only a failure of the
database upload itself is caught and logged per query: a query whose
extraction flattens successfully never raises, whether or not its upload
succeeds. -/
theorem refresh_jira_data_empty_extraction_aborts (pre post : List QueryRun)
    (q : QueryRun) (hpre : ∀ p ∈ pre, ∃ r, pull_data p = .ok r)
    (hq : q.rows = []) :
    pull_data q = .error .noData ∧
    refresh_jira_data (pre ++ q :: post) = .error .noData ∧
    ∀ (p : QueryRun) (d : Df), list_to_df p.rows = .ok d →
      pull_data p = .ok (if p.dbOk then .uploaded else .uploadFailedLogged) := by
  have hqpull : pull_data q = .error .noData := by
    simp [pull_data, hq, list_to_df]
  refine ⟨hqpull, ?_, ?_⟩
  · induction pre with
    | nil => simp [refresh_jira_data, hqpull]
    | cons p pre2 ih =>
      obtain ⟨r, hr⟩ := hpre p (List.mem_cons_self p pre2)
      have ih2 := ih (fun p2 hp2 => hpre p2 (List.mem_cons_of_mem p hp2))
      simp [refresh_jira_data, hr, ih2]
  · intro p d hd
    cases hdb : p.dbOk <;> simp [pull_data, hd, hdb]

/-- Witness for the amended batch-abort theorem: one healthy query before
a query with an empty extraction; the run aborts with the no-data
exception. -/
theorem refresh_jira_data_empty_extraction_aborts_witness :
    pull_data ⟨[], false⟩ = .error .noData ∧
    refresh_jira_data [⟨[[("key", PyVal.int 1)]], true⟩, ⟨[], false⟩] =
      .error .noData := by
  have h := refresh_jira_data_empty_extraction_aborts
    [⟨[[("key", PyVal.int 1)]], true⟩] [] ⟨[], false⟩
    (by
      intro p hp
      have hp2 : p = ⟨[[("key", PyVal.int 1)]], true⟩ := by simpa using hp
      exact ⟨.uploaded, by rw [hp2]; rfl⟩)
    rfl
  exact ⟨h.1, h.2.1⟩

/-- C6: for every worklog entry and sprint window (timestamps given as
parsed timezone-aware instants; the sprint boundaries are stamped UTC by
the code), the filter returns true iff
`start_date <= started <= end_date` on the UTC instants, inclusive at
both ends: a `started` exactly equal to either boundary is included, and
an instant one microsecond before `start_date` or after `end_date` is
excluded. -/
theorem worklog_within_sprint_iff_window (worklog : WorklogEntry)
    (sprint_data : SprintDataRow) :
    (worklog_within_sprint worklog sprint_data = true ↔
      utcMicros ⟨sprint_data.start_date, 0⟩ ≤ utcMicros worklog.started ∧
      utcMicros worklog.started ≤ utcMicros ⟨sprint_data.end_date, 0⟩) ∧
    (utcMicros worklog.started = utcMicros ⟨sprint_data.start_date, 0⟩ →
      utcMicros ⟨sprint_data.start_date, 0⟩ ≤ utcMicros ⟨sprint_data.end_date, 0⟩ →
      worklog_within_sprint worklog sprint_data = true) ∧
    (utcMicros worklog.started = utcMicros ⟨sprint_data.end_date, 0⟩ →
      utcMicros ⟨sprint_data.start_date, 0⟩ ≤ utcMicros ⟨sprint_data.end_date, 0⟩ →
      worklog_within_sprint worklog sprint_data = true) ∧
    (utcMicros worklog.started + 1 = utcMicros ⟨sprint_data.start_date, 0⟩ →
      worklog_within_sprint worklog sprint_data = false) ∧
    (utcMicros worklog.started = utcMicros ⟨sprint_data.end_date, 0⟩ + 1 →
      worklog_within_sprint worklog sprint_data = false) := by
  refine ⟨?_, ?_, ?_, ?_, ?_⟩
  · simp [worklog_within_sprint, awareLe]
  · intro h1 h2
    simp only [worklog_within_sprint, awareLe, Bool.and_eq_true, decide_eq_true_eq]
    omega
  · intro h1 h2
    simp only [worklog_within_sprint, awareLe, Bool.and_eq_true, decide_eq_true_eq]
    omega
  · intro h1
    simp only [worklog_within_sprint, awareLe, Bool.and_eq_false_iff,
      decide_eq_false_iff_not]
    omega
  · intro h1
    simp only [worklog_within_sprint, awareLe, Bool.and_eq_false_iff,
      decide_eq_false_iff_not]
    omega

/-- Witness for the worklog window filter: a worklog started at
02:00+02:00 equals the 00:00Z sprint start instant and is included; a
worklog one microsecond before the start instant is excluded. -/
theorem worklog_within_sprint_iff_window_witness :
    worklog_within_sprint ⟨3600, ⟨⟨2023, 1, 10, 2, 0, 0, 0⟩, 120⟩⟩
      ⟨"Sprint 1", ⟨2023, 1, 10, 0, 0, 0, 0⟩, ⟨2023, 1, 20, 23, 59, 59, 999999⟩,
        1, "closed", .finite false 1 0⟩ = true ∧
    worklog_within_sprint ⟨3600, ⟨⟨2023, 1, 9, 23, 59, 59, 999999⟩, 0⟩⟩
      ⟨"Sprint 1", ⟨2023, 1, 10, 0, 0, 0, 0⟩, ⟨2023, 1, 20, 23, 59, 59, 999999⟩,
        1, "closed", .finite false 1 0⟩ = false := by
  constructor
  · exact (worklog_within_sprint_iff_window _ _).2.1 (by decide) (by decide)
  · exact (worklog_within_sprint_iff_window _ _).2.2.2.1 (by decide)

theorem lookup_cons_self (k : String) (v : α) (rest : List (String × α)) :
    List.lookup k ((k, v) :: rest) = some v := by
  simp [List.lookup]

theorem lookup_cons_ne (k k2 : String) (v : α) (rest : List (String × α))
    (h : k2 ≠ k) : List.lookup k2 ((k, v) :: rest) = List.lookup k2 rest := by
  have hbeq : (k2 == k) = false := beq_false_of_ne h
  simp [List.lookup, hbeq]

theorem overwrite_head (k k1 : String) (v : α) (v1 : α) :
    (if (k1, v1).1 = k then (k, v) else (k1, v1)) =
      if k1 = k then (k, v) else (k1, v1) := rfl

theorem lookup_map_overwrite (d : List (String × α)) (k : String) (v : α) :
    (d.map (fun kv => if kv.1 = k then (k, v) else kv)).lookup k =
      if (d.lookup k).isSome then some v else Option.none := by
  induction d with
  | nil => simp
  | cons kv rest ih =>
    obtain ⟨k1, v1⟩ := kv
    rw [List.map_cons, overwrite_head]
    by_cases h : k1 = k
    · subst h
      rw [if_pos rfl, lookup_cons_self, lookup_cons_self]
      simp
    · rw [if_neg h, lookup_cons_ne k1 k v1 _ (Ne.symm h),
        lookup_cons_ne k1 k v1 _ (Ne.symm h), ih]

theorem lookup_map_overwrite_ne (d : List (String × α)) (k k2 : String) (v : α)
    (h : k2 ≠ k) :
    (d.map (fun kv => if kv.1 = k then (k, v) else kv)).lookup k2 = d.lookup k2 := by
  induction d with
  | nil => simp
  | cons kv rest ih =>
    obtain ⟨k1, v1⟩ := kv
    rw [List.map_cons, overwrite_head]
    by_cases h1 : k1 = k
    · subst h1
      rw [if_pos rfl, lookup_cons_ne k1 k2 v _ h, lookup_cons_ne k1 k2 v1 _ h, ih]
    · rw [if_neg h1]
      by_cases h2 : k2 = k1
      · subst h2
        rw [lookup_cons_self, lookup_cons_self]
      · rw [lookup_cons_ne k1 k2 v1 _ h2, lookup_cons_ne k1 k2 v1 _ h2, ih]

theorem lookup_append_single_self (d : List (String × α)) (k : String) (v : α)
    (h : d.lookup k = Option.none) :
    (d ++ [(k, v)]).lookup k = some v := by
  induction d with
  | nil => simp [List.lookup]
  | cons kv rest ih =>
    obtain ⟨k1, v1⟩ := kv
    by_cases h2 : k = k1
    · subst h2
      rw [lookup_cons_self] at h
      simp at h
    · rw [lookup_cons_ne k1 k v1 _ h2] at h
      rw [List.cons_append, lookup_cons_ne k1 k v1 _ h2]
      exact ih h

theorem lookup_append_single_ne (d : List (String × α)) (k k2 : String) (v : α)
    (h : k2 ≠ k) :
    (d ++ [(k, v)]).lookup k2 = d.lookup k2 := by
  induction d with
  | nil => simp [List.lookup, beq_false_of_ne h]
  | cons kv rest ih =>
    obtain ⟨k1, v1⟩ := kv
    by_cases h2 : k2 = k1
    · subst h2
      rw [List.cons_append, lookup_cons_self, lookup_cons_self]
    · rw [List.cons_append, lookup_cons_ne k1 k2 v1 _ h2,
        lookup_cons_ne k1 k2 v1 _ h2, ih]

theorem lookup_dictSet_self (d : List (String × α)) (k : String) (v : α) :
    (dictSet d k v).lookup k = some v := by
  unfold dictSet
  split
  · rename_i hsome
    rw [lookup_map_overwrite]
    simp [hsome]
  · rename_i hnone
    refine lookup_append_single_self d k v ?_
    cases hcase : d.lookup k with
    | none => rfl
    | some w => rw [hcase] at hnone; simp at hnone

theorem lookup_dictSet_ne (d : List (String × α)) (k k2 : String) (v : α)
    (h : k2 ≠ k) :
    (dictSet d k v).lookup k2 = d.lookup k2 := by
  unfold dictSet
  split
  · exact lookup_map_overwrite_ne d k k2 v h
  · exact lookup_append_single_ne d k k2 v h

theorem get_issue_data_go_preserve (issue_fields : List (String × PyVal)) :
    ∀ (fields : List (String × Option String)) (acc out : List (String × PyVal))
      (k : String), k ∉ fields.map Prod.fst →
      get_issue_data.go issue_fields acc fields = .ok out →
      out.lookup k = acc.lookup k := by
  intro fields
  induction fields with
  | nil =>
    intro acc out k _ hgo
    simp only [get_issue_data.go] at hgo
    cases hgo
    rfl
  | cons fkv rest ih =>
    obtain ⟨fn, fk⟩ := fkv
    intro acc out k hk hgo
    have hkfn : k ≠ fn := by
      intro he
      exact hk (by simp [he])
    have hkrest : k ∉ rest.map Prod.fst := by
      intro he
      exact hk (by simp [he])
    simp only [get_issue_data.go] at hgo
    split at hgo
    · split at hgo
      · rw [ih _ _ k hkrest hgo, lookup_dictSet_ne _ _ _ _ hkfn]
      · rw [ih _ _ k hkrest hgo, lookup_dictSet_ne _ _ _ _ hkfn]
    · split at hgo
      · rw [ih _ _ k hkrest hgo, lookup_dictSet_ne _ _ _ _ hkfn]
      · rw [ih _ _ k hkrest hgo, lookup_dictSet_ne _ _ _ _ hkfn]
    · exact Except.noConfusion hgo

theorem get_issue_data_go_lookup (issue_fields : List (String × PyVal)) :
    ∀ (fields : List (String × Option String)) (acc out : List (String × PyVal)),
      (fields.map Prod.fst).Nodup →
      get_issue_data.go issue_fields acc fields = .ok out →
      ∀ fn fk, (fn, fk) ∈ fields →
        (∀ val, get_issue_field_val issue_fields fn fk = .ok val →
          out.lookup fn = some (if fn = "resolution" then PyVal.int 1
            else if pyToLower (pyStr val) = "nan" then PyVal.none else val)) ∧
        (get_issue_field_val issue_fields fn fk = .error .typeError →
          out.lookup fn = some (if fn = "resolution" then PyVal.int 0
            else PyVal.none)) := by
  intro fields
  induction fields with
  | nil =>
    intro acc out _ _ fn fk hmem
    simp at hmem
  | cons fkv rest ih =>
    obtain ⟨fn0, fk0⟩ := fkv
    intro acc out hnd hgo fn fk hmem
    have hnd0 : fn0 ∉ rest.map Prod.fst := by
      simp only [List.map_cons, List.nodup_cons] at hnd
      exact hnd.1
    have hndrest : (rest.map Prod.fst).Nodup := by
      simp only [List.map_cons, List.nodup_cons] at hnd
      exact hnd.2
    simp only [get_issue_data.go] at hgo
    rcases List.mem_cons.mp hmem with hhead | hrest2
    · have hfn : fn = fn0 := congrArg Prod.fst hhead
      have hfk : fk = fk0 := congrArg Prod.snd hhead
      subst hfn
      subst hfk
      split at hgo
      · rename_i val heq
        split at hgo
        · rename_i hres
          refine ⟨?_, ?_⟩
          · intro val2 _
            rw [get_issue_data_go_preserve issue_fields rest _ _ fn hnd0 hgo,
              lookup_dictSet_self, if_pos hres]
          · intro hte
            rw [heq] at hte
            exact Except.noConfusion hte
        · rename_i hres
          refine ⟨?_, ?_⟩
          · intro val2 hval2
            have hv : val2 = val := by
              rw [heq] at hval2
              injection hval2 with h
              exact h.symm
            subst hv
            rw [get_issue_data_go_preserve issue_fields rest _ _ fn hnd0 hgo,
              lookup_dictSet_self, if_neg hres]
          · intro hte
            rw [heq] at hte
            exact Except.noConfusion hte
      · rename_i heq
        split at hgo
        · rename_i hres
          refine ⟨?_, ?_⟩
          · intro val2 hval2
            rw [heq] at hval2
            exact Except.noConfusion hval2
          · intro _
            rw [get_issue_data_go_preserve issue_fields rest _ _ fn hnd0 hgo,
              lookup_dictSet_self, if_pos hres]
        · rename_i hres
          refine ⟨?_, ?_⟩
          · intro val2 hval2
            rw [heq] at hval2
            exact Except.noConfusion hval2
          · intro _
            rw [get_issue_data_go_preserve issue_fields rest _ _ fn hnd0 hgo,
              lookup_dictSet_self, if_neg hres]
      · exact Except.noConfusion hgo
    · split at hgo
      · split at hgo
        · exact ih _ _ hndrest hgo fn fk hrest2
        · exact ih _ _ hndrest hgo fn fk hrest2
      · split at hgo
        · exact ih _ _ hndrest hgo fn fk hrest2
        · exact ih _ _ hndrest hgo fn fk hrest2
      · exact Except.noConfusion hgo

/-- C3: for every issue and field mapping containing the key
`resolution` (with distinct field names, as dict keys are), whenever the
extraction returns a dict: the `resolution` output is `1` whenever the
resolution field resolves without a TypeError and is not null, it is `0`
whenever resolving raises a TypeError (for instance sub-key access on a
null container), and for every other field name a TypeError yields null. -/
theorem get_issue_data_resolution_cases (issue_fields : List (String × PyVal))
    (fields : List (String × Option String)) (fk : Option String)
    (hmem : ("resolution", fk) ∈ fields)
    (hnd : (fields.map Prod.fst).Nodup)
    (out : List (String × PyVal))
    (hout : get_issue_data issue_fields fields = .ok out) :
    (∀ val, get_issue_field_val issue_fields "resolution" fk = .ok val →
      val ≠ PyVal.none → out.lookup "resolution" = some (PyVal.int 1)) ∧
    (get_issue_field_val issue_fields "resolution" fk = .error .typeError →
      out.lookup "resolution" = some (PyVal.int 0)) ∧
    (∀ fn fk2, (fn, fk2) ∈ fields → fn ≠ "resolution" →
      get_issue_field_val issue_fields fn fk2 = .error .typeError →
      out.lookup fn = some PyVal.none) := by
  have hchar := get_issue_data_go_lookup issue_fields fields [] out hnd hout
  refine ⟨?_, ?_, ?_⟩
  · intro val hval _
    have h := (hchar "resolution" fk hmem).1 val hval
    simpa using h
  · intro hte
    have h := (hchar "resolution" fk hmem).2 hte
    simpa using h
  · intro fn fk2 hmem2 hne hte
    have h := (hchar fn fk2 hmem2).2 hte
    rw [if_neg hne] at h
    exact h

/-- Witness for the field extractor: a resolved issue yields
`resolution = 1`; a null `assignee` container under sub-key access
yields null for that field. -/
theorem get_issue_data_resolution_cases_witness :
    List.lookup "resolution" [("resolution", PyVal.int 1), ("assignee", PyVal.none)]
      = some (PyVal.int 1) ∧
    List.lookup "assignee" [("resolution", PyVal.int 1), ("assignee", PyVal.none)]
      = some PyVal.none := by
  have h := get_issue_data_resolution_cases
    [("resolution", PyVal.dict [("name", PyVal.str "Done")]), ("assignee", PyVal.none)]
    [("resolution", some "name"), ("assignee", some "displayName")]
    (some "name") (by decide) (by decide)
    [("resolution", PyVal.int 1), ("assignee", PyVal.none)] rfl
  exact ⟨h.1 (PyVal.str "Done") rfl (by decide),
    h.2.2 "assignee" (some "displayName") (by decide) (by decide) rfl⟩

theorem exceptMap_sprint_rows_ok (sprints : List SprintObj)
    (h : ∀ s ∈ sprints, (pyFloat? (pyLastToken s.name)).isSome) :
    ∃ rows, exceptMap (fun sprint =>
        match pyFloat? (pyLastToken sprint.name) with
        | some f => Except.ok (⟨sprint.name, sprint.startDate, sprint.endDate,
            sprint.boardId, sprint.state, f⟩ : SprintDataRow)
        | Option.none => Except.error PyErr.valueError) sprints = .ok rows ∧
      rows.length = sprints.length ∧
      ∀ i, i < sprints.length →
        ∃ s row f, sprints[i]? = some s ∧ rows[i]? = some row ∧
          pyFloat? (pyLastToken s.name) = some f ∧
          row = ⟨s.name, s.startDate, s.endDate, s.boardId, s.state, f⟩ := by
  induction sprints with
  | nil => exact ⟨[], rfl, rfl, fun i hi => absurd hi (by simp)⟩
  | cons s0 rest ih =>
    obtain ⟨f0, hf0⟩ := Option.isSome_iff_exists.mp
      (h s0 (List.mem_cons_self s0 rest))
    obtain ⟨rows, hrows, hlen, hpt⟩ :=
      ih (fun s hs => h s (List.mem_cons_of_mem s0 hs))
    refine ⟨⟨s0.name, s0.startDate, s0.endDate, s0.boardId, s0.state, f0⟩ :: rows,
      ?_, by simp [hlen], ?_⟩
    · simp only [exceptMap, hf0, hrows]
    · intro i hi
      cases i with
      | zero => exact ⟨s0, _, f0, by simp, by simp, hf0, rfl⟩
      | succ i2 =>
        obtain ⟨s, row, f, hs, hrow, hf, hrec⟩ := hpt i2 (by simpa using hi)
        exact ⟨s, row, f, by simpa using hs, by simpa using hrow, hf, hrec⟩

theorem exceptMap_sprint_rows_error (sprints : List SprintObj) (s : SprintObj)
    (hmem : s ∈ sprints) (hbad : pyFloat? (pyLastToken s.name) = Option.none) :
    exceptMap (fun sprint =>
        match pyFloat? (pyLastToken sprint.name) with
        | some f => Except.ok (⟨sprint.name, sprint.startDate, sprint.endDate,
            sprint.boardId, sprint.state, f⟩ : SprintDataRow)
        | Option.none => Except.error PyErr.valueError) sprints =
      .error .valueError := by
  induction sprints with
  | nil => simp at hmem
  | cons s0 rest ih =>
    cases hf0 : pyFloat? (pyLastToken s0.name) with
    | none => simp only [exceptMap, hf0]
    | some f0 =>
      have hmem2 : s ∈ rest := by
        rcases List.mem_cons.mp hmem with h1 | h1
        · subst h1
          rw [hf0] at hbad
          exact Option.noConfusion hbad
        · exact h1
      simp only [exceptMap, hf0, ih hmem2]

/-- C9: Pipeline 2 computes a numeric `sprint_number` for each sprint of
an issue by parsing the last whitespace-delimited token of the sprint
name as a Python float; when every name parses the rows are produced
with exactly that parsed number, and for an issue having any sprint
whose last token is not numeric (such as a name like `Backlog`),
`get_issue_sprint_data` raises `ValueError` and the sprint-time rows of
that issue are not produced. -/
theorem get_issue_sprint_data_parse (iss : JiraIssue) (sprints : List SprintObj)
    (hs : iss.sprints = some sprints) :
    ((∀ s ∈ sprints, (pyFloat? (pyLastToken s.name)).isSome) →
      ∃ rows, get_issue_sprint_data iss = .ok rows ∧
        rows.length = sprints.length ∧
        ∀ i, i < sprints.length →
          ∃ s row f, sprints[i]? = some s ∧ rows[i]? = some row ∧
            pyFloat? (pyLastToken s.name) = some f ∧
            row = ⟨s.name, s.startDate, s.endDate, s.boardId, s.state, f⟩) ∧
    ((∃ s ∈ sprints, pyFloat? (pyLastToken s.name) = Option.none) →
      get_issue_sprint_data iss = .error .valueError ∧
      get_issue_sprint_data_with_time_spent iss = .error .valueError) := by
  constructor
  · intro h
    obtain ⟨rows, hrows, hlen, hpt⟩ := exceptMap_sprint_rows_ok sprints h
    refine ⟨rows, ?_, hlen, hpt⟩
    simp only [get_issue_sprint_data, hs]
    exact hrows
  · intro ⟨s, hmem, hbad⟩
    have herr : get_issue_sprint_data iss = .error .valueError := by
      simp only [get_issue_sprint_data, hs]
      exact exceptMap_sprint_rows_error sprints s hmem hbad
    exact ⟨herr, by simp [get_issue_sprint_data_with_time_spent, herr]⟩

/-- Witness for the sprint-number parse: an issue whose only sprint is
named `Backlog` produces no sprint rows and no sprint-time rows — both
extractions raise. -/
theorem get_issue_sprint_data_parse_witness :
    get_issue_sprint_data
      ⟨"AB-1", "1", 0, some [⟨"Backlog", ⟨2023, 1, 1, 0, 0, 0, 0⟩,
        ⟨2023, 1, 2, 0, 0, 0, 0⟩, 1, "active"⟩], []⟩ = .error .valueError ∧
    get_issue_sprint_data_with_time_spent
      ⟨"AB-1", "1", 0, some [⟨"Backlog", ⟨2023, 1, 1, 0, 0, 0, 0⟩,
        ⟨2023, 1, 2, 0, 0, 0, 0⟩, 1, "active"⟩], []⟩ = .error .valueError := by
  exact (get_issue_sprint_data_parse _ _ rfl).2
    ⟨⟨"Backlog", ⟨2023, 1, 1, 0, 0, 0, 0⟩, ⟨2023, 1, 2, 0, 0, 0, 0⟩, 1, "active"⟩,
      by decide, by decide⟩

theorem charListLe_total : ∀ as bs : List Char,
    charListLe as bs = true ∨ charListLe bs as = true := by
  intro as
  induction as with
  | nil => intro bs; left; rfl
  | cons a as ih =>
    intro bs
    cases bs with
    | nil => right; rfl
    | cons b bs =>
      by_cases hab : a = b
      · subst hab
        simp only [charListLe, if_pos rfl]
        exact ih bs
      · rcases lt_trichotomy a b with h | h | h
        · left
          simp [charListLe, hab, h]
        · exact absurd h hab
        · right
          simp [charListLe, Ne.symm hab, h, not_lt_of_gt h]

theorem charListLe_trans : ∀ as bs cs : List Char,
    charListLe as bs = true → charListLe bs cs = true →
    charListLe as cs = true := by
  intro as
  induction as with
  | nil => intro bs cs _ _; rfl
  | cons a as ih =>
    intro bs cs hab hbc
    cases bs with
    | nil => simp [charListLe] at hab
    | cons b bs =>
      cases cs with
      | nil => simp [charListLe] at hbc
      | cons c cs =>
        by_cases h1 : a = b
        · subst h1
          simp only [charListLe, if_pos rfl] at hab
          by_cases h2 : a = c
          · subst h2
            simp only [charListLe, if_pos rfl] at hbc ⊢
            exact ih bs cs hab hbc
          · simp only [charListLe, if_neg h2] at hbc ⊢
            exact hbc
        · simp only [charListLe, if_neg h1] at hab
          have hlt1 : a < b := by simpa using hab
          by_cases h2 : b = c
          · subst h2
            simp [charListLe, h1, hlt1]
          · simp only [charListLe, if_neg h2] at hbc
            have hlt2 : b < c := by simpa using hbc
            have hac : a < c := lt_trans hlt1 hlt2
            simp [charListLe, ne_of_lt hac, hac]

theorem charListLe_iff_not_lt : ∀ as bs : List Char,
    charListLe as bs = true ↔ ¬ List.lt bs as := by
  intro as
  induction as with
  | nil =>
    intro bs
    constructor
    · intro _ hlt
      cases hlt
    · intro _
      rfl
  | cons a as ih =>
    intro bs
    cases bs with
    | nil =>
      constructor
      · intro h
        simp [charListLe] at h
      · intro h
        exact absurd (List.lt.nil a as) h
    | cons b bs =>
      by_cases h1 : a = b
      · subst h1
        have hstep : charListLe (a :: as) (a :: bs) = charListLe as bs := by
          simp [charListLe]
        rw [hstep, ih bs]
        constructor
        · intro hn hlt
          cases hlt with
          | head _ _ h2 => exact absurd h2 (lt_irrefl a)
          | tail h2 h3 h4 => exact hn h4
        · intro hn hlt
          exact hn (List.lt.tail (lt_irrefl a) (lt_irrefl a) hlt)
      · simp only [charListLe, if_neg h1]
        constructor
        · intro h hlt
          have hab : a < b := by simpa using h
          cases hlt with
          | head _ _ h2 => exact absurd hab (lt_asymm h2)
          | tail h2 h3 h4 => exact h3 hab
        · intro hn
          rcases lt_trichotomy a b with h | h | h
          · simpa using h
          · exact absurd h h1
          · exact absurd (List.lt.head bs as h) hn

theorem pyStrLe_iff_le (a b : String) : pyStrLe a b = true ↔ a ≤ b := by
  rw [String.le_iff_toList_le, ← not_lt]
  show charListLe a.data b.data = true ↔ _
  rw [charListLe_iff_not_lt]
  constructor
  · intro h hlt
    exact h ((List.lt_iff_lex_lt _ _).mpr hlt)
  · intro h hlt
    exact h ((List.lt_iff_lex_lt _ _).mp hlt)

theorem lookup_map_pair_self (l : List String) (g : String → β) (k : String) :
    (l.map (fun x => (x, g x))).lookup k =
      if k ∈ l then some (g k) else Option.none := by
  induction l with
  | nil => simp
  | cons x xs ih =>
    rw [List.map_cons]
    by_cases hx : k = x
    · subst hx
      rw [lookup_cons_self]
      simp
    · rw [lookup_cons_ne x k (g x) _ hx, ih]
      by_cases hm : k ∈ xs <;> simp [hm, hx]

theorem lookup_countMap (xs : List String) (label : String) :
    ((xs.dedup.map (fun k => (k, xs.count k))).lookup label).getD 0 =
      xs.count label := by
  rw [lookup_map_pair_self]
  by_cases h : label ∈ xs.dedup
  · simp [h]
  · have h2 : label ∉ xs := fun hc => h (List.mem_dedup.mpr hc)
    simp [h, List.count_eq_zero.mpr h2]

/-- C2 counterexample: one issue belonging to two sprints.  Its sprint
field carries the stringified descriptors of sprints 1 and 2, its
membership records are `(id 1, Sprint 1)` and `(id 2, Sprint 2)` — so its
last-assigned sprint is `Sprint 2` and the number of issues last-assigned
to `Sprint 1` is 0 — and its dataframe row (keyed by the last sprint) is
`("Sprint 2", "Done")`.  The summary built by the code reports
`total = 1` for `Sprint 1`, because `get_sprint_counts` counts every
membership occurrence, not last assignments: 1 differs from the 0 the
claim requires. -/
theorem sprint_summary_total_cex :
    get_sprint_counts
      [["[id=1,name=Sprint 1,goal=]", "[id=2,name=Sprint 2,goal=]"]] =
      .ok [("Sprint 1", 1), ("Sprint 2", 1)] ∧
    sprint_summary [("Sprint 1", 1), ("Sprint 2", 1)]
      (get_issues_completed [("Sprint 2", "Done")]) =
      [("Sprint 1", 0, 1), ("Sprint 2", 1, 1)] ∧
    get_last_sprint [⟨1, "Sprint 1"⟩, ⟨2, "Sprint 2"⟩] = .ok "Sprint 2" ∧
    spec_total_last_assigned [[⟨1, "Sprint 1"⟩, ⟨2, "Sprint 2"⟩]] "Sprint 1" = 0 ∧
    (1 : Nat) ≠ 0 := by
  refine ⟨by decide, by decide, by decide, by decide, by decide⟩


theorem sprint_summary_sorted (counts completed : List (String × Nat)) :
    (sprint_summary counts completed).Pairwise
      (fun r1 r2 : SummaryRow => r1.1 ≤ r2.1) := by
  haveI htot : IsTotal SummaryRow (fun a b => pyStrLe a.1 b.1 = true) :=
    ⟨fun a b => charListLe_total a.1.data b.1.data⟩
  haveI htr : IsTrans SummaryRow (fun a b => pyStrLe a.1 b.1 = true) :=
    ⟨fun a b c hab hbc => charListLe_trans a.1.data b.1.data c.1.data hab hbc⟩
  have hs := List.sorted_insertionSort (fun a b : SummaryRow => pyStrLe a.1 b.1 = true)
    (counts.map (fun kv => (kv.1, ((completed.lookup kv.1).getD 0, kv.2))))
  exact List.Pairwise.imp (fun hab => (pyStrLe_iff_le _ _).mp hab) hs

theorem sprint_summary_perm (counts completed : List (String × Nat)) :
    (sprint_summary counts completed).Perm
      (counts.map (fun kv => (kv.1, ((completed.lookup kv.1).getD 0, kv.2)))) :=
  List.perm_insertionSort _ _

theorem sprint_summary_mem (counts completed : List (String × Nat))
    (label : String) (c t : Nat) :
    (label, (c, t)) ∈ sprint_summary counts completed ↔
      ((label, t) ∈ counts ∧ c = (completed.lookup label).getD 0) := by
  rw [(sprint_summary_perm counts completed).mem_iff, List.mem_map]
  constructor
  · rintro ⟨⟨k, v⟩, hmem, heq⟩
    injection heq with h1 h2
    injection h2 with h2a h2b
    subst h1
    subst h2b
    exact ⟨hmem, h2a.symm⟩
  · rintro ⟨hmem, hc⟩
    exact ⟨(label, t), hmem, by simp [hc]⟩

theorem sprint_summary_labels_nodup (counts completed : List (String × Nat))
    (h : (counts.map Prod.fst).Nodup) :
    ((sprint_summary counts completed).map Prod.fst).Nodup := by
  have hp := (sprint_summary_perm counts completed).map Prod.fst
  rw [hp.nodup_iff, List.map_map]
  have hcomp : (Prod.fst ∘ fun kv : String × Nat =>
      ((kv.1, ((completed.lookup kv.1).getD 0, kv.2)) : SummaryRow)) =
      (Prod.fst : String × Nat → String) := by
    funext kv
    rfl
  rw [hcomp]
  exact h

/-- C2 (amended): for every batch, in the summary built from
`get_sprint_counts` and `get_issues_completed`, the total recorded for
each sprint label equals the number of membership occurrences of that
label across the sprint lists of all issues (an issue counts once per
membership, not only for its last-assigned sprint); `completed` equals
the number of dataframe rows (issues keyed by their last sprint) whose
sprint column is that label and whose status is `done`
case-insensitively — in particular 0 for labels absent from the
completed mapping; and the rows are sorted by sprint label ascending
with pairwise-distinct labels. -/
theorem sprint_summary_pipeline (sprint_data : List (List String))
    (jira_rows : List (String × String)) (names : List String)
    (hnames : exceptMap extract_sprint_name sprint_data.flatten = .ok names) :
    get_sprint_counts sprint_data =
      .ok (names.dedup.map (fun k => (k, names.count k))) ∧
    (sprint_summary (names.dedup.map (fun k => (k, names.count k)))
        (get_issues_completed jira_rows)).Pairwise
      (fun r1 r2 : SummaryRow => r1.1 ≤ r2.1) ∧
    ((sprint_summary (names.dedup.map (fun k => (k, names.count k)))
        (get_issues_completed jira_rows)).map Prod.fst).Nodup ∧
    ∀ label c t,
      (label, (c, t)) ∈ sprint_summary (names.dedup.map (fun k => (k, names.count k)))
        (get_issues_completed jira_rows) ↔
      (label ∈ names ∧
       c = ((jira_rows.filter (fun r => pyToLower r.2 = "done")).map
         Prod.fst).count label ∧
       t = names.count label) := by
  refine ⟨?_, sprint_summary_sorted _ _, ?_, ?_⟩
  · simp only [get_sprint_counts, hnames]
  · refine sprint_summary_labels_nodup _ _ ?_
    rw [List.map_map]
    have hcomp : ((Prod.fst : String × Nat → String) ∘ fun k => (k, names.count k)) =
        id := by
      funext k
      rfl
    rw [hcomp, List.map_id]
    exact List.nodup_dedup names
  · intro label c t
    rw [sprint_summary_mem]
    have hlook : ((get_issues_completed jira_rows).lookup label).getD 0 =
        ((jira_rows.filter (fun r => pyToLower r.2 = "done")).map
          Prod.fst).count label :=
      lookup_countMap _ label
    have hmemc : (label, t) ∈ names.dedup.map (fun k => (k, names.count k)) ↔
        (label ∈ names ∧ t = names.count label) := by
      rw [List.mem_map]
      constructor
      · rintro ⟨k, hk, heq⟩
        simp only [Prod.mk.injEq] at heq
        obtain ⟨h1, h2⟩ := heq
        subst h1
        exact ⟨List.mem_dedup.mp hk, h2.symm⟩
      · rintro ⟨hmem, ht⟩
        exact ⟨label, List.mem_dedup.mpr hmem, by simp [ht]⟩
    rw [hlook, hmemc]
    tauto

/-- Witness for the amended sprint-summary theorem: a one-issue batch
with a single sprint descriptor yields the count map with one entry. -/
theorem sprint_summary_pipeline_witness :
    get_sprint_counts [["[id=1,name=Sprint 1,goal=]"]] =
      .ok [("Sprint 1", 1)] := by
  have h := sprint_summary_pipeline [["[id=1,name=Sprint 1,goal=]"]] []
    ["Sprint 1"] (by decide)
  exact h.1

theorem exceptMap_forall_source (f : α → Except PyErr β) :
    ∀ (l : List α) (ys : List β), exceptMap f l = .ok ys →
      ∀ y ∈ ys, ∃ a ∈ l, f a = .ok y := by
  intro l
  induction l with
  | nil =>
    intro ys h y hy
    cases h
    simp at hy
  | cons a rest ih =>
    intro ys h y hy
    simp only [exceptMap] at h
    cases hfa : f a with
    | error e =>
      rw [hfa] at h
      exact Except.noConfusion h
    | ok b =>
      simp only [hfa] at h
      cases hrest : exceptMap f rest with
      | error e =>
        simp only [hrest] at h
        exact Except.noConfusion h
      | ok bs =>
        simp only [hrest] at h
        cases h
        rcases List.mem_cons.mp hy with h1 | h1
        · exact ⟨a, List.mem_cons_self a rest, by rw [hfa, h1]⟩
        · obtain ⟨a2, ha2, hfa2⟩ := ih bs hrest y h1
          exact ⟨a2, List.mem_cons_of_mem a ha2, hfa2⟩

/-- C10: Pipeline 2 fetches at most 20 issues per project — the query
string restricts to issue types Task, Bug, Subtask, Sub-task ordered by
`updated` descending and the call passes `maxResults=20`, although the
docstring of `get_project_issues` claims a maximum of 100 — so the fetch
is the 20-issue prefix of the tracker result list (the most recently
updated matching issues when that list is sorted by `updated`
descending), and every sprint-time row subsequently produced for the
project derives from one of these at-most-20 issues. -/
theorem get_project_issues_bound (matching : List JiraIssue)
    (fetchFull : JiraIssue → JiraIssue)
    (hsorted : matching.Pairwise (fun a b => b.updated ≤ a.updated)) :
    (get_project_issues matching).length ≤ 20 ∧
    get_project_issues matching = matching.take 20 ∧
    (∀ kept ∈ get_project_issues matching, ∀ dropped ∈ matching.drop 20,
      dropped.updated ≤ kept.updated) ∧
    (∀ project_key, project_issues_jql project_key =
      "project=" ++ project_key ++
        " and issuetype in (Task, Bug, Subtask, Sub-task) ORDER BY updated DESC") ∧
    ∀ rows, all_sprint_rows fetchFull (get_project_issues matching) = .ok rows →
      ∀ row ∈ rows, ∃ iss ∈ (get_project_issues matching).map fetchFull,
        row.issue_key = iss.key := by
  refine ⟨?_, rfl, ?_, ?_, ?_⟩
  · exact List.length_take_le 20 matching
  swap
  · intro key
    unfold project_issues_jql
    rw [String.append_assoc]
    rfl
  · intro kept hkept dropped hdropped
    have hsplit : matching.take 20 ++ matching.drop 20 = matching :=
      List.take_append_drop 20 matching
    rw [← hsplit] at hsorted
    exact (List.pairwise_append.mp hsorted).2.2 kept hkept dropped hdropped
  · intro rows hrows row hrow
    simp only [all_sprint_rows] at hrows
    split at hrows
    · exact Except.noConfusion hrows
    · rename_i ls hls
      cases hrows
      obtain ⟨sub, hsub, hrowsub⟩ := List.mem_flatten.mp hrow
      obtain ⟨iss, hiss, hfiss⟩ := exceptMap_forall_source
        get_issue_sprint_data_with_time_spent _ ls hls sub hsub
      have hiss2 : iss ∈ (get_project_issues matching).map fetchFull :=
        List.mem_of_mem_filter hiss
      simp only [get_issue_sprint_data_with_time_spent] at hfiss
      split at hfiss
      · exact Except.noConfusion hfiss
      · rename_i sds hsds
        cases hfiss
        obtain ⟨sd, _, hsd⟩ := List.mem_map.mp hrowsub
        refine ⟨iss, hiss2, ?_⟩
        rw [← hsd]
        rfl

/-- Witness for the project fetch bound: two issues sorted by `updated`
descending are fetched whole (fewer than 20). -/
theorem get_project_issues_bound_witness :
    (get_project_issues [⟨"A-1", "1", 5, Option.none, []⟩,
      ⟨"A-2", "2", 3, Option.none, []⟩]).length ≤ 20 ∧
    get_project_issues [⟨"A-1", "1", 5, Option.none, []⟩,
      ⟨"A-2", "2", 3, Option.none, []⟩] =
      [⟨"A-1", "1", 5, Option.none, []⟩, ⟨"A-2", "2", 3, Option.none, []⟩] := by
  have h := get_project_issues_bound
    [⟨"A-1", "1", 5, Option.none, []⟩, ⟨"A-2", "2", 3, Option.none, []⟩]
    id (by decide)
  exact ⟨h.1, h.2.1.trans (by decide)⟩

theorem lookup_none_iff_not_mem_keys (l : List (String × α)) (k : String) :
    l.lookup k = Option.none ↔ k ∉ l.map Prod.fst := by
  induction l with
  | nil => simp
  | cons kv rest ih =>
    obtain ⟨k1, v1⟩ := kv
    by_cases h : k = k1
    · subst h
      rw [lookup_cons_self]
      simp
    · rw [lookup_cons_ne k1 k v1 _ h, ih]
      simp [h]

theorem lookup_isSome_of_mem_keys (l : List (String × α)) (k : String)
    (h : k ∈ l.map Prod.fst) : ∃ v, l.lookup k = some v := by
  cases hl : l.lookup k with
  | none => exact absurd h ((lookup_none_iff_not_mem_keys l k).mp hl)
  | some v => exact ⟨v, rfl⟩

theorem lookup_map_value (d : List (String × β)) (g : β → γ) (k : String) :
    (d.map (fun kc => (kc.1, g kc.2))).lookup k = (d.lookup k).map g := by
  induction d with
  | nil => simp
  | cons kc rest ih =>
    obtain ⟨k1, v1⟩ := kc
    by_cases h : k = k1
    · subst h
      rw [List.map_cons]
      rw [show ((((k, v1) : String × β).1, g ((k, v1) : String × β).2)) = (k, g v1)
          from rfl,
        lookup_cons_self, lookup_cons_self]
      rfl
    · rw [List.map_cons]
      rw [show ((((k1, v1) : String × β).1, g ((k1, v1) : String × β).2)) = (k1, g v1)
          from rfl,
        lookup_cons_ne k1 k (g v1) _ h, lookup_cons_ne k1 k v1 _ h, ih]

theorem df_append_spec (d : Df) (k : String) (v : PyVal)
    (hmem : k ∈ d.map Prod.fst) :
    ∃ d2, df_append d k v = .ok d2 ∧
      d2.map Prod.fst = d.map Prod.fst ∧
      (∀ k2, k2 ≠ k → d2.lookup k2 = d.lookup k2) ∧
      d2.lookup k = (d.lookup k).map (fun col => col ++ [v]) := by
  induction d with
  | nil => simp at hmem
  | cons kc rest ih =>
    obtain ⟨k1, col1⟩ := kc
    by_cases h : k1 = k
    · subst h
      refine ⟨(k1, col1 ++ [v]) :: rest, ?_, by simp, ?_, ?_⟩
      · simp [df_append]
      · intro k2 hk2
        rw [lookup_cons_ne k1 k2 _ _ hk2, lookup_cons_ne k1 k2 _ _ hk2]
      · rw [lookup_cons_self, lookup_cons_self]
        rfl
    · have hmem2 : k ∈ rest.map Prod.fst := by
        rw [List.map_cons] at hmem
        rcases List.mem_cons.mp hmem with h1 | h1
        · exact absurd h1.symm h
        · exact h1
      obtain ⟨r2, hr2, hkeys2, hne2, hself2⟩ := ih hmem2
      refine ⟨(k1, col1) :: r2, ?_, by simp [hkeys2], ?_, ?_⟩
      · simp only [df_append, if_neg h, hr2]
      · intro k2 hk2
        by_cases hk21 : k2 = k1
        · subst hk21
          rw [lookup_cons_self, lookup_cons_self]
        · rw [lookup_cons_ne k1 k2 _ _ hk21, lookup_cons_ne k1 k2 _ _ hk21]
          exact hne2 k2 hk2
      · have hkne : k ≠ k1 := fun he => h he.symm
        rw [lookup_cons_ne k1 k _ _ hkne, lookup_cons_ne k1 k _ _ hkne]
        exact hself2

theorem df_add_row_spec :
    ∀ (row : Row) (d : Df), (row.map Prod.fst).Nodup →
      (∀ k ∈ row.map Prod.fst, k ∈ d.map Prod.fst) →
      ∃ d2, df_add_row d row = .ok d2 ∧
        d2.map Prod.fst = d.map Prod.fst ∧
        (∀ k v, row.lookup k = some v →
          d2.lookup k = (d.lookup k).map (fun col => col ++ [v])) ∧
        (∀ k, row.lookup k = Option.none → d2.lookup k = d.lookup k) := by
  intro row
  induction row with
  | nil =>
    intro d _ _
    exact ⟨d, rfl, rfl, fun k v hkv => Option.noConfusion hkv, fun k _ => rfl⟩
  | cons kv rest ih =>
    obtain ⟨k0, v0⟩ := kv
    intro d hnd hsub
    have hk0 : k0 ∈ d.map Prod.fst := hsub k0 (by simp)
    obtain ⟨d1, hd1, hkeys1, hne1, hself1⟩ := df_append_spec d k0 v0 hk0
    rw [List.map_cons, List.nodup_cons] at hnd
    have hk0rest : k0 ∉ rest.map Prod.fst := hnd.1
    have hsubrest : ∀ k ∈ rest.map Prod.fst, k ∈ d1.map Prod.fst := by
      intro k hk
      rw [hkeys1]
      exact hsub k (by rw [List.map_cons]; exact List.mem_cons_of_mem _ hk)
    obtain ⟨d2, hd2, hkeys2, hA, hB⟩ := ih d1 hnd.2 hsubrest
    refine ⟨d2, ?_, by rw [hkeys2, hkeys1], ?_, ?_⟩
    · simp only [df_add_row, hd1, hd2]
    · intro k v hkv
      by_cases hk : k = k0
      · subst hk
        rw [lookup_cons_self] at hkv
        injection hkv with hv
        subst hv
        have hrnone : rest.lookup k = Option.none :=
          (lookup_none_iff_not_mem_keys rest k).mpr hk0rest
        rw [hB k hrnone, hself1]
      · rw [lookup_cons_ne k0 k v0 rest hk] at hkv
        rw [hA k v hkv, hne1 k hk]
    · intro k hkv
      by_cases hk : k = k0
      · subst hk
        rw [lookup_cons_self] at hkv
        exact Option.noConfusion hkv
      · rw [lookup_cons_ne k0 k v0 rest hk] at hkv
        rw [hB k hkv, hne1 k hk]

theorem df_add_rows_spec :
    ∀ (rowsL : List Row) (d : Df),
      (∀ r ∈ rowsL, (r.map Prod.fst).Nodup) →
      (∀ r ∈ rowsL, ∀ k, k ∈ r.map Prod.fst ↔ k ∈ d.map Prod.fst) →
      ∃ dfin, df_add_rows d rowsL = .ok dfin ∧
        dfin.map Prod.fst = d.map Prod.fst ∧
        ∀ k, dfin.lookup k =
          (d.lookup k).map
            (fun col => col ++ rowsL.filterMap (fun r => r.lookup k)) := by
  intro rowsL
  induction rowsL with
  | nil =>
    intro d _ _
    refine ⟨d, rfl, rfl, fun k => ?_⟩
    cases d.lookup k <;> simp
  | cons row rest ih =>
    intro d hnd hkeys
    have hndr := hnd row (List.mem_cons_self row rest)
    have hsub : ∀ k ∈ row.map Prod.fst, k ∈ d.map Prod.fst :=
      fun k hk => (hkeys row (List.mem_cons_self row rest) k).mp hk
    obtain ⟨d1, hd1, hkeys1, hA, hB⟩ := df_add_row_spec row d hndr hsub
    have hkeysrest : ∀ r ∈ rest, ∀ k, k ∈ r.map Prod.fst ↔ k ∈ d1.map Prod.fst := by
      intro r hr k
      rw [hkeys1]
      exact hkeys r (List.mem_cons_of_mem row hr) k
    obtain ⟨dfin, hdfin, hkeysf, hlookf⟩ :=
      ih d1 (fun r hr => hnd r (List.mem_cons_of_mem row hr)) hkeysrest
    refine ⟨dfin, ?_, by rw [hkeysf, hkeys1], ?_⟩
    · simp only [df_add_rows, hd1, hdfin]
    · intro k
      rw [hlookf k]
      cases hrk : row.lookup k with
      | some v =>
        rw [hA k v hrk, List.filterMap_cons]
        cases hdk : d.lookup k <;> simp [hrk]
      | none =>
        rw [hB k hrk, List.filterMap_cons]
        cases hdk : d.lookup k <;> simp [hrk]

theorem lookup_map_nilcol (l : List (String × PyVal)) (k : String) :
    (l.map (fun kv => (kv.1, ([] : List PyVal)))).lookup k =
      if k ∈ l.map Prod.fst then some [] else Option.none := by
  induction l with
  | nil => simp
  | cons kv rest ih =>
    obtain ⟨k1, v1⟩ := kv
    rw [List.map_cons]
    by_cases h : k = k1
    · subst h
      rw [show ((((k, v1) : String × PyVal).1, ([] : List PyVal))) = (k, ([] : List PyVal))
          from rfl, lookup_cons_self]
      simp
    · rw [show ((((k1, v1) : String × PyVal).1, ([] : List PyVal))) =
          (k1, ([] : List PyVal)) from rfl,
        lookup_cons_ne k1 k _ _ h, ih]
      by_cases hm : k ∈ List.map Prod.fst rest <;> simp [hm, h]

theorem filterMap_lookup_length (rowsL : List Row) (k : String)
    (h : ∀ r ∈ rowsL, ∃ v, r.lookup k = some v) :
    (rowsL.filterMap (fun r => r.lookup k)).length = rowsL.length := by
  induction rowsL with
  | nil => rfl
  | cons r rest ih =>
    obtain ⟨v, hv⟩ := h r (List.mem_cons_self r rest)
    rw [List.filterMap_cons, hv]
    simp only [List.length_cons]
    rw [ih (fun r2 hr2 => h r2 (List.mem_cons_of_mem r hr2))]

theorem filterMap_lookup_getD (rowsL : List Row) (k : String)
    (h : ∀ r ∈ rowsL, ∃ v, r.lookup k = some v) :
    ∀ i, i < rowsL.length →
      some ((rowsL.filterMap (fun r => r.lookup k)).getD i PyVal.none) =
        (rowsL.getD i []).lookup k := by
  induction rowsL with
  | nil =>
    intro i hi
    simp at hi
  | cons r rest ih =>
    intro i hi
    obtain ⟨v, hv⟩ := h r (List.mem_cons_self r rest)
    rw [List.filterMap_cons, hv]
    cases i with
    | zero => simp [hv]
    | succ i2 =>
      simp only [List.getD_cons_succ]
      exact ih (fun r2 hr2 => h r2 (List.mem_cons_of_mem r hr2)) i2 (by simpa using hi)

/-- C8 counterexample: a non-empty sequence of empty mappings — which all
share the same (empty) key set — flattens to a dataframe with no
columns; the row count is lost and re-grouping row-wise yields zero
rows, not the original one-element sequence. -/
theorem list_to_df_roundtrip_cex :
    list_to_df [[]] = .ok [] ∧
    df_to_rows [] = ([] : List Row) ∧
    ([] : List Row) ≠ [[]] := by
  refine ⟨rfl, rfl, by decide⟩

/-- C8 (amended): for every non-empty sequence of flat mappings that all
share the same non-empty key set (each mapping with distinct keys, as
Python dicts have), flattening with `list_to_df` succeeds and
re-grouping row-wise with `df_to_rows` yields the original sequence of
mappings in the original order: the row count is preserved and row `i`
of the regrouped output agrees, as a mapping, with input mapping `i` at
every key.  With an empty key set the column table is empty and the row
count is lost, hence the added non-empty key set hypothesis. -/
theorem list_to_df_roundtrip (rows : List Row) (first : Row)
    (hfirst : rows.head? = some first)
    (hne : first ≠ [])
    (hnd : ∀ r ∈ rows, (r.map Prod.fst).Nodup)
    (hkeys : ∀ r ∈ rows, ∀ k, k ∈ r.map Prod.fst ↔ k ∈ first.map Prod.fst) :
    ∃ d, list_to_df rows = .ok d ∧
      df_nrows d = rows.length ∧
      (df_to_rows d).length = rows.length ∧
      ∀ i k, ((df_to_rows d).getD i []).lookup k = (rows.getD i []).lookup k := by
  cases rows with
  | nil => exact Option.noConfusion hfirst
  | cons r0 rest =>
  have hr0 : r0 = first := by
    injection hfirst
  subst hr0
  have hkeys0 : (r0.map (fun kv => (kv.1, ([] : List PyVal)))).map Prod.fst =
      r0.map Prod.fst := by
    rw [List.map_map]
    rfl
  have hkeysd : ∀ r ∈ r0 :: rest, ∀ k, k ∈ r.map Prod.fst ↔
      k ∈ (r0.map (fun kv => (kv.1, ([] : List PyVal)))).map Prod.fst := by
    intro r hr k
    rw [hkeys0]
    exact hkeys r hr k
  obtain ⟨dfin, hdfin, hkeysf, hlookf⟩ :=
    df_add_rows_spec (r0 :: rest) (r0.map (fun kv => (kv.1, ([] : List PyVal))))
      hnd hkeysd
  have hltd : list_to_df (r0 :: rest) = .ok dfin := by
    simp only [list_to_df]
    exact hdfin
  have hlookIn : ∀ k, k ∈ r0.map Prod.fst →
      dfin.lookup k = some ((r0 :: rest).filterMap (fun r => r.lookup k)) := by
    intro k hk
    rw [hlookf k, lookup_map_nilcol, if_pos hk]
    simp
  have hlookOut : ∀ k, k ∉ r0.map Prod.fst → dfin.lookup k = Option.none := by
    intro k hk
    rw [hlookf k, lookup_map_nilcol, if_neg hk]
    rfl
  have hall : ∀ k, k ∈ r0.map Prod.fst →
      ∀ r ∈ r0 :: rest, ∃ v, r.lookup k = some v :=
    fun k hk r hr => lookup_isSome_of_mem_keys r k ((hkeys r hr k).mpr hk)
  have hkeysfin : dfin.map Prod.fst = r0.map Prod.fst := by
    rw [hkeysf, hkeys0]
  have hnrows : df_nrows dfin = (r0 :: rest).length := by
    rcases hdf : dfin with _ | ⟨⟨kh, colh⟩, dtail⟩
    · rw [hdf] at hkeysfin
      have hnil : r0.map Prod.fst = [] := hkeysfin.symm
      exact absurd (List.map_eq_nil_iff.mp hnil) hne
    · have hkh : kh ∈ r0.map Prod.fst := by
        rw [← hkeysfin, hdf]
        simp
      have h1 : dfin.lookup kh = some colh := by
        rw [hdf]
        exact lookup_cons_self kh colh dtail
      have h2 := hlookIn kh hkh
      rw [h1] at h2
      injection h2 with hcol
      show colh.length = (r0 :: rest).length
      rw [hcol]
      exact filterMap_lookup_length _ kh (hall kh hkh)
  have hrowslen : (df_to_rows dfin).length = (r0 :: rest).length := by
    rw [df_to_rows, List.length_map, List.length_range, hnrows]
  refine ⟨dfin, hltd, hnrows, hrowslen, ?_⟩
  intro i k
  by_cases hi : i < (r0 :: rest).length
  · have hrow_i : (df_to_rows dfin).getD i [] =
        dfin.map (fun kc => (kc.1, kc.2.getD i PyVal.none)) := by
      rw [df_to_rows, List.getD_eq_getElem?_getD, List.getElem?_map,
        List.getElem?_range (by rw [hnrows]; exact hi)]
      rfl
    rw [hrow_i, lookup_map_value dfin (fun col => col.getD i PyVal.none) k]
    by_cases hk : k ∈ r0.map Prod.fst
    · rw [hlookIn k hk]
      simp only [Option.map_some']
      exact filterMap_lookup_getD (r0 :: rest) k (hall k hk) i hi
    · rw [hlookOut k hk]
      have hmem : (r0 :: rest).getD i [] ∈ r0 :: rest := by
        rw [List.getD_eq_getElem?_getD, List.getElem?_eq_getElem hi]
        exact List.getElem_mem hi
      have hrl : ((r0 :: rest).getD i []).lookup k = Option.none :=
        (lookup_none_iff_not_mem_keys _ k).mpr
          (fun hc => hk ((hkeys _ hmem k).mp hc))
      rw [hrl]
      rfl
  · have h1 : (df_to_rows dfin).getD i [] = ([] : Row) := by
      rw [List.getD_eq_getElem?_getD,
        List.getElem?_eq_none (by rw [hrowslen]; omega)]
      rfl
    have h2 : (r0 :: rest).getD i [] = ([] : Row) := by
      rw [List.getD_eq_getElem?_getD, List.getElem?_eq_none (by omega)]
      rfl
    rw [h1, h2]

/-- Witness for the round-trip theorem: two rows with the shared key set
(a, b) flatten and regroup to mappings with the original lookups. -/
theorem list_to_df_roundtrip_witness :
    ((df_to_rows [("a", [PyVal.int 1, PyVal.int 2]),
        ("b", [PyVal.str "x", PyVal.str "y"])]).getD 1 []).lookup "a" =
      some (PyVal.int 2) := by
  have h := list_to_df_roundtrip
    [[("a", PyVal.int 1), ("b", PyVal.str "x")],
     [("a", PyVal.int 2), ("b", PyVal.str "y")]]
    [("a", PyVal.int 1), ("b", PyVal.str "x")]
    rfl (by decide) (by decide)
    (by
      intro r hr k
      rcases List.mem_cons.mp hr with h1 | h1
      · rw [h1]
      · rcases List.mem_cons.mp h1 with h2 | h2
        · rw [h2]
          simp [List.mem_cons]
        · simp at h2)
  obtain ⟨d, hd, _, _, hpt⟩ := h
  have hdval : d = [("a", [PyVal.int 1, PyVal.int 2]),
      ("b", [PyVal.str "x", PyVal.str "y"])] := by
    have : list_to_df [[("a", PyVal.int 1), ("b", PyVal.str "x")],
        [("a", PyVal.int 2), ("b", PyVal.str "y")]] =
        .ok [("a", [PyVal.int 1, PyVal.int 2]),
          ("b", [PyVal.str "x", PyVal.str "y"])] := by decide
    rw [this] at hd
    injection hd with h3
    exact h3.symm
  rw [← hdval]
  rw [hpt 1 "a"]
  decide
